import Mathlib

/-!
# The country search service: cache, fetch client and request handlers

A shallow embedding of `internal/cache/cache.go`, `internal/externalapi/externalapi.go`
and `internal/server`. The Go heap of `node` records is an explicit store indexed by
addresses, the key map is a finite association map from keys to addresses, and
every method of `LRUCache` is a function from states to states. The HTTP client,
the JSON codec, the router and the process environment are parameters of the
functions that use them.
-/

namespace externalapi

/-- The Go struct `CountrySearchResponse`. -/
structure CountrySearchResponse where
  Name : String
  Capital : String
  Currency : String
  Population : Int
deriving DecidableEq, Repr

/-- The Go struct `CountryAPIResponse`; `Currencies` lists the `Symbol` fields. -/
structure CountryAPIResponse where
  Name : String
  Capital : String
  Population : Int
  Currencies : List String
deriving DecidableEq, Repr

/-- The zero value `CountrySearchResponse{}`. -/
def CountrySearchResponse.zero : CountrySearchResponse := ⟨"", "", "", 0⟩

/-- What the function sees of an `*http.Response`: the status code and the
outcome of `io.ReadAll(resp.Body)`, the bytes read or the error message. -/
structure Response where
  StatusCode : Int
  Body : Except String String

/-- The library calls `FetchCountryDataWithClient` makes: `client.Get(url)`
(a response or an error message), `json.Unmarshal` into `[]CountryAPIResponse`
(the records or an error message) and `strings.EqualFold`. -/
structure Client where
  get : String → Except String Response
  unmarshal : String → Except String (List CountryAPIResponse)
  equalFold : String → String → Bool

/-- What a call returns and does: the record, the error (`none` is `nil`,
`some msg` an error with message `msg`) and the URLs requested from the client. -/
structure FetchResult where
  response : CountrySearchResponse
  err : Option String
  requests : List String

/-- The loop `for _, country := range apiResponse` with its early return, and
the final `return CountrySearchResponse{}, nil`. -/
def firstMatch (equalFold : String → String → Bool) (name : String) :
    List CountryAPIResponse → CountrySearchResponse
  | [] => CountrySearchResponse.zero
  | country :: rest =>
    if equalFold country.Name name then
      let response : CountrySearchResponse :=
        { Name := country.Name, Capital := country.Capital, Currency := "",
          Population := country.Population }
      match country.Currencies with
      | symbol :: _ => { response with Currency := symbol }
      | [] => response
    else firstMatch equalFold name rest

/-- The Go function `FetchCountryDataWithClient`. -/
def FetchCountryDataWithClient (name : String) (client : Client) : FetchResult :=
  if name = "" then
    ⟨CountrySearchResponse.zero, some "country name cannot be empty", []⟩
  else
    let url := "https://www.apicountries.com/name/" ++ name
    match client.get url with
    | Except.error err => ⟨CountrySearchResponse.zero, some err, [url]⟩
    | Except.ok resp =>
      match resp.Body with
      | Except.error err => ⟨CountrySearchResponse.zero, some err, [url]⟩
      | Except.ok body =>
        if resp.StatusCode ≠ 200 then
          ⟨CountrySearchResponse.zero,
            some ("api returned status " ++ toString resp.StatusCode), [url]⟩
        else
          match client.unmarshal body with
          | Except.error err => ⟨CountrySearchResponse.zero, some err, [url]⟩
          | Except.ok apiResponse =>
            ⟨firstMatch client.equalFold name apiResponse, none, [url]⟩

/-- The Go function `strings.Contains` on the characters of two strings. -/
def Contains (s substr : String) : Prop := substr.toList <:+: s.toList

instance decidableContains (s substr : String) : Decidable (Contains s substr) :=
  inferInstanceAs (Decidable (substr.toList <:+: s.toList))

end externalapi

namespace cache

/-- Values of Go type `any` stored in the cache: `nil`, a string, an integer or
a `CountrySearchResponse` record. -/
inductive GoAny where
  | nil : GoAny
  | str : String → GoAny
  | int : Int → GoAny
  | record : externalapi.CountrySearchResponse → GoAny
deriving DecidableEq, Repr

/-- The Go struct `node`; a `*node` is an address, `nil` is `none`. -/
structure node where
  key : String
  value : GoAny
  prev : Option Nat
  next : Option Nat
deriving DecidableEq, Repr

/-- The Go struct `LRUCache` with the heap it points into. `cache` is the Go
`map[string]*node`; `heap` gives the record stored at every address and
`alloc` is the next address handed out by `&node{...}`. The mutex is not
modelled: calls are taken one at a time. -/
structure LRUCache where
  capacity : Int
  cache : AList (fun _ : String => Nat)
  head : Option Nat
  tail : Option Nat
  heap : Nat → node
  alloc : Nat

/-- The Go function `NewLRUCache`: the log line for a non-positive capacity has
no effect on the returned value. -/
def NewLRUCache (capacity : Int) : LRUCache :=
  { capacity := capacity
    cache := ∅
    head := none
    tail := none
    heap := fun _ => ⟨"", GoAny.nil, none, none⟩
    alloc := 0 }

namespace LRUCache

/-- The Go expression `len(c.cache)`. -/
def len (c : LRUCache) : Nat := c.cache.keys.length

/-- The Go method `addToHead`. -/
def addToHead (c : LRUCache) (n : Nat) : LRUCache :=
  -- n.prev = nil; n.next = c.head
  let h1 := Function.update c.heap n { c.heap n with prev := none, next := c.head }
  -- if c.head != nil { c.head.prev = n }
  let h2 := match c.head with
    | some hd => Function.update h1 hd { h1 hd with prev := some n }
    | none => h1
  -- c.head = n
  let c1 := { c with heap := h2, head := some n }
  -- if c.tail == nil { c.tail = n }
  match c1.tail with
  | none => { c1 with tail := some n }
  | some _ => c1

/-- The Go method `removeNode`. -/
def removeNode (c : LRUCache) (n : Nat) : LRUCache :=
  let c1 := match (c.heap n).prev with
    | some p => { c with heap := Function.update c.heap p { c.heap p with next := (c.heap n).next } }
    | none => { c with head := (c.heap n).next }
  match (c1.heap n).next with
  | some q => { c1 with heap := Function.update c1.heap q { c1.heap q with prev := (c1.heap n).prev } }
  | none => { c1 with tail := (c1.heap n).prev }

/-- The Go method `moveToHead`. -/
def moveToHead (c : LRUCache) (n : Nat) : LRUCache :=
  (c.removeNode n).addToHead n

/-- The Go method `evict`. -/
def evict (c : LRUCache) : LRUCache :=
  match c.tail with
  | none => c
  | some lru =>
    let c1 := c.removeNode lru
    { c1 with cache := c1.cache.erase (c1.heap lru).key }

/-- The Go method `Get`: the new state, the returned value and the returned flag. -/
def Get (c : LRUCache) (key : String) : LRUCache × GoAny × Bool :=
  match c.cache.lookup key with
  | none => (c, GoAny.nil, false)
  | some n =>
    let c1 := c.moveToHead n
    (c1, (c1.heap n).value, true)

/-- The Go method `Set`. -/
def Set (c : LRUCache) (key : String) (value : GoAny) : LRUCache :=
  match c.cache.lookup key with
  | some n =>
    let c1 := { c with heap := Function.update c.heap n { c.heap n with value := value } }
    c1.moveToHead n
  | none =>
    let n := c.alloc
    let c1 := { c with
      heap := Function.update c.heap n ⟨key, value, none, none⟩
      alloc := c.alloc + 1 }
    let c2 := { c1 with cache := c1.cache.insert key n }
    let c3 := c2.addToHead n
    if (c3.len : Int) > c3.capacity then c3.evict else c3

/-- The loop `for cur := p; cur != nil; cur = cur.next`, collecting the visited
addresses; `none` when the fuel runs out before `nil` is met. -/
def walkNext (h : Nat → node) : Nat → Option Nat → Option (List Nat)
  | _, none => some []
  | 0, some _ => none
  | fuel + 1, some p => (walkNext h fuel (h p).next).map (fun l => p :: l)

/-- The loop `for cur := p; cur != nil; cur = cur.prev`. -/
def walkPrev (h : Nat → node) : Nat → Option Nat → Option (List Nat)
  | _, none => some []
  | 0, some _ => none
  | fuel + 1, some p => (walkPrev h fuel (h p).prev).map (fun l => p :: l)

/-- Addresses met walking `next` links from `head`, within `len(c.cache)` steps. -/
def forward (c : LRUCache) : Option (List Nat) := walkNext c.heap c.len c.head

/-- Addresses met walking `prev` links from `tail`, within `len(c.cache)` steps. -/
def backward (c : LRUCache) : Option (List Nat) := walkPrev c.heap c.len c.tail

/-- Keys met walking from head to tail. -/
def order (c : LRUCache) : Option (List String) :=
  c.forward.map (fun l => l.map (fun p => (c.heap p).key))

/-- Keys and values met walking from head to tail. -/
def entries (c : LRUCache) : Option (List (String × GoAny)) :=
  c.forward.map (fun l => l.map (fun p => ((c.heap p).key, (c.heap p).value)))

end LRUCache

/-- One call on the cache. -/
inductive Op where
  | get : String → Op
  | set : String → GoAny → Op
deriving DecidableEq, Repr

/-- The state after one call. -/
def step (c : LRUCache) : Op → LRUCache
  | Op.get k => (c.Get k).1
  | Op.set k v => c.Set k v

/-- The state after a sequence of calls, first call first. -/
def run (c : LRUCache) (ops : List Op) : LRUCache := ops.foldl step c

/-- A state is reachable from `NewLRUCache C` when some sequence of `Get` and
`Set` calls leads to it. -/
def Reachable (C : Int) (c : LRUCache) : Prop := ∃ ops : List Op, run (NewLRUCache C) ops = c

/-- The value the key map gives for a key: the `value` field of the node the
map sends the key to, if any. -/
def LRUCache.peek (c : LRUCache) (key : String) : Option GoAny :=
  (c.cache.lookup key).map (fun n => (c.heap n).value)

/-- The key stored in the node `tail` points to. -/
def LRUCache.tailKey (c : LRUCache) : Option String := c.tail.map (fun p => (c.heap p).key)

/-- The key stored in the node `head` points to. -/
def LRUCache.headKey (c : LRUCache) : Option String := c.head.map (fun p => (c.heap p).key)

/-! ## Specification vocabulary: segments, representation, entry lists, touches -/

/-- First address of a list of addresses, or `d` for the empty list. -/
def headOr : List Nat → Option Nat → Option Nat
  | [], d => d
  | x :: _, _ => some x

/-- Last address of a list of addresses, or `d` for the empty list. -/
def lastOr : List Nat → Option Nat → Option Nat
  | [], d => d
  | x :: xs, _ => lastOr xs (some x)

/-- The addresses `l` form a doubly-linked segment of heap `h` entered from
`prev` and left towards `nxt`. -/
def dll (h : Nat → node) : Option Nat → List Nat → Option Nat → Prop
  | _, [], _ => True
  | prev, x :: xs, nxt => (h x).prev = prev ∧ (h x).next = headOr xs nxt ∧ dll h (some x) xs nxt

/-- The links of state `c` spell out the list of addresses `l`, head first. -/
structure Links (c : LRUCache) (l : List Nat) : Prop where
  nodup : l.Nodup
  head_eq : c.head = l.head?
  tail_eq : c.tail = l.getLast?
  chain : dll c.heap none l none

/-- The key and the value stored at an address. -/
def LRUCache.kv (c : LRUCache) (p : Nat) : String × GoAny := ((c.heap p).key, (c.heap p).value)

/-- State `c` represents the list of addresses `l`: the links spell out `l`, the
key map holds exactly the keys stored at the addresses of `l` and sends each of
them to its address, and every address of `l` has been allocated. -/
structure Rep (c : LRUCache) (l : List Nat) : Prop where
  links : Links c l
  keys_perm : c.cache.keys.Perm (l.map fun p => (c.heap p).key)
  lookup_eq : ∀ p ∈ l, c.cache.lookup (c.heap p).key = some p
  fresh : ∀ p ∈ l, p < c.alloc

/-- The value an entry list gives for a key: that of the first entry with this key. -/
def assoc (es : List (String × GoAny)) (j : String) : Option GoAny :=
  (es.find? (fun e => e.1 = j)).map Prod.snd

/-- State `c` holds the entries `es`, head first. -/
def Abs (c : LRUCache) (es : List (String × GoAny)) : Prop :=
  ∃ l, Rep c l ∧ l.map c.kv = es

/-- The entry list after one call, in terms of the entry list before it. -/
def absStep (C : Int) (es : List (String × GoAny)) : Op → List (String × GoAny)
  | Op.get k =>
    match assoc es k with
    | some v => (k, v) :: es.filter (fun e => e.1 ≠ k)
    | none => es
  | Op.set k v =>
    if k ∈ es.map Prod.fst then (k, v) :: es.filter (fun e => e.1 ≠ k)
    else if ((es.length + 1 : Nat) : Int) > C then ((k, v) :: es).dropLast
    else (k, v) :: es

/-- The entry list after a sequence of calls. -/
def absRun (C : Int) (es : List (String × GoAny)) (ops : List Op) : List (String × GoAny) :=
  ops.foldl (absStep C) es

/-- The calls `Set(k, v)` for the pairs of a list, in order. -/
def sets (kvs : List (String × GoAny)) : List Op := kvs.map (fun e => Op.set e.1 e.2)

/-- The key a call sets, if it is a `Set`. -/
def Op.setKey? : Op → Option String
  | Op.get _ => none
  | Op.set k _ => some k

/-- The keys of the `Set` calls of a sequence, in order. -/
def setKeys (ops : List Op) : List String := ops.filterMap Op.setKey?

/-- The touches made by a sequence of calls started in state `c`, put in front
of `acc`, most recent first: the key of every `Set`, and the key of every `Get`
that returns `true`. -/
def touchLog : LRUCache → List String → List Op → List String
  | _, acc, [] => acc
  | c, acc, Op.get k :: ops =>
    touchLog (c.Get k).1 (if (c.Get k).2.2 then k :: acc else acc) ops
  | c, acc, Op.set k v :: ops => touchLog (c.Set k v) (k :: acc) ops

/-- The time of the last touch of `k` in a log that lists touches most recent
first: touches are numbered from 1 in the order they were made, and 0 stands
for a key that was never touched. -/
def lastTouch (log : List String) (k : String) : Nat := log.length - log.indexOf k

/-- The recency list `ks` agrees with the touch log: its keys are distinct and
touched, they stand in strictly decreasing order of last touch, every touched
key outside of it was last touched before each key in it, it has
`min C (number of touched keys)` elements and starts with the last touch. -/
structure Recency (C : Int) (ks log : List String) : Prop where
  nodup : ks.Nodup
  touched : ∀ k ∈ ks, k ∈ log
  sorted : ks.Pairwise (fun a b => lastTouch log b < lastTouch log a)
  outside : ∀ k ∈ log, k ∉ ks → ∀ j ∈ ks, lastTouch log k < lastTouch log j
  length_eq : (ks.length : Int) = min C (log.dedup.length : Int)
  head_eq : ks.head? = log.head?

end cache

namespace externalapi

/-- The Go function `FetchCountryData`; `defaultClient` stands for `http.DefaultClient`. -/
def FetchCountryData (name : String) (defaultClient : Client) : FetchResult :=
  FetchCountryDataWithClient name defaultClient

/-- A client whose network call fails: `client.Get` reports the transport error
`network error` the way `net/http` words it. -/
def networkErrorClient : Client :=
  { get := fun url => Except.error ("Get \"" ++ url ++ "\": network error")
    unmarshal := fun _ => Except.error "unexpected end of JSON input"
    equalFold := fun a b => a.toList.map Char.toLower = b.toList.map Char.toLower }

/-- A client that answers status 200 with a body that parses to the single
record of France. -/
def franceClient : Client :=
  { get := fun _ => Except.ok ⟨200, Except.ok "[France]"⟩
    unmarshal := fun _ => Except.ok [⟨"France", "Paris", 67000000, ["€"]⟩]
    equalFold := fun a b => a.toList.map Char.toLower = b.toList.map Char.toLower }

end externalapi

namespace server

/-- What the handlers read of an `*http.Request`: the method, the path and the
query parameters as `r.URL.Query().Get` gives them (the empty string for a
parameter that is absent). -/
structure Request where
  Method : String
  Path : String
  Query : String → String

/-- The state of an `http.ResponseWriter`: the header map, the status code once
it is written, the body written so far, and the headers that went out with the
status line (`sent`, the header map as it was at the first `WriteHeader`; later
changes of the map do not reach the client). -/
structure ResponseWriter where
  header : List (String × String)
  status : Option Nat
  body : String
  sent : Option (List (String × String))
deriving DecidableEq, Repr

/-- A writer nothing was written to. -/
def ResponseWriter.fresh : ResponseWriter := ⟨[], none, "", none⟩

/-- The library call `w.Header().Set(key, value)`. -/
def ResponseWriter.HeaderSet (w : ResponseWriter) (key value : String) : ResponseWriter :=
  { w with header := (key, value) :: w.header.filter (fun e => e.1 ≠ key) }

/-- The library call `w.Header().Del(key)`. -/
def ResponseWriter.HeaderDel (w : ResponseWriter) (key : String) : ResponseWriter :=
  { w with header := w.header.filter (fun e => e.1 ≠ key) }

/-- The library call `w.Header().Get(key)`: the empty string when the key is absent. -/
def ResponseWriter.HeaderGet (w : ResponseWriter) (key : String) : String :=
  ((w.header.find? (fun e => e.1 = key)).map Prod.snd).getD ""

/-- The library call `w.WriteHeader(code)`: the first status written stays, and
the header map of that moment is what is sent. -/
def ResponseWriter.WriteHeader (w : ResponseWriter) (code : Nat) : ResponseWriter :=
  match w.status with
  | none => { w with status := some code, sent := some w.header }
  | some _ => w

/-- The value of a header in the response the client receives: the value in the
headers sent at the first `WriteHeader`, or, when the handler returned without
writing, the value in the header map, which `net/http` then sends as it is.
The empty string when the header is absent. -/
def ResponseWriter.SentHeader (w : ResponseWriter) (key : String) : String :=
  match w.sent with
  | some h => ((h.find? (fun e => e.1 = key)).map Prod.snd).getD ""
  | none => w.HeaderGet key

/-- The library call `w.Write(b)`: writes status 200 first when none was written. -/
def ResponseWriter.Write (w : ResponseWriter) (b : String) : ResponseWriter :=
  let w1 := w.WriteHeader 200
  { w1 with body := w1.body ++ b }

/-- The library function `http.Error(w, msg, code)`. -/
def httpError (w : ResponseWriter) (msg : String) (code : Nat) : ResponseWriter :=
  let w1 := w.HeaderDel "Content-Length"
  let w2 := w1.HeaderSet "Content-Type" "text/plain; charset=utf-8"
  let w3 := w2.HeaderSet "X-Content-Type-Options" "nosniff"
  let w4 := w3.WriteHeader code
  w4.Write (msg ++ "\n")

/-- The Go struct `Server`. -/
structure Server where
  port : Int
  cache : cache.LRUCache

/-- Everything a handler can change while it serves one request: the server
with its cache, the response writer, the names handed to `FetchCountryData`,
and whether `log.Fatalf` ended the process. -/
structure World where
  s : Server
  w : ResponseWriter
  fetched : List String
  exited : Bool

/-- An `http.Handler`: what serving a request does to the world. -/
abbrev Handler := Request → World → World

/-- The end of `SearchCountryHandler`: `json.Marshal(resp)`, `log.Fatalf` on an
error, `w.Write(jsonResp)` otherwise. -/
def writeJSON (marshal : externalapi.CountrySearchResponse → Except String String)
    (x : World) (resp : externalapi.CountrySearchResponse) : World :=
  match marshal resp with
  | Except.error _ => { x with exited := true }
  | Except.ok jsonResp => { x with w := x.w.Write jsonResp }

/-- The Go method `SearchCountryHandler`; `defaultClient` stands for
`http.DefaultClient` and `marshal` for `json.Marshal`. -/
def SearchCountryHandler (defaultClient : externalapi.Client)
    (marshal : externalapi.CountrySearchResponse → Except String String) : Handler :=
  fun r x =>
    let name := r.Query "name"
    match x.s.cache.Get name with
    | (c1, value, true) =>
      let x1 := { x with s := { x.s with cache := c1 } }
      match value with
      | cache.GoAny.record country => writeJSON marshal x1 country
      | _ => writeJSON marshal x1 externalapi.CountrySearchResponse.zero
    | (c1, _, false) =>
      let res := externalapi.FetchCountryData name defaultClient
      let x1 := { x with s := { x.s with cache := c1 }, fetched := x.fetched ++ [name] }
      match res.err with
      | some _ => { x1 with w := httpError x1.w "Country not found" 404 }
      | none =>
        let x2 := { x1 with
          s := { x1.s with cache := c1.Set name (cache.GoAny.record res.response) } }
        writeJSON marshal x2 res.response

/-- The Go method `corsMiddleware`. -/
def corsMiddleware (next : Handler) : Handler :=
  fun r x =>
    let w1 := x.w.HeaderSet "Access-Control-Allow-Origin" "*"
    let w2 := w1.HeaderSet "Access-Control-Allow-Methods" "GET, POST, PUT, DELETE, OPTIONS, PATCH"
    let w3 := w2.HeaderSet "Access-Control-Allow-Headers"
      "Accept, Authorization, Content-Type, X-CSRF-Token"
    let w4 := w3.HeaderSet "Access-Control-Allow-Credentials" "false"
    if r.Method = "OPTIONS" then { x with w := w4.WriteHeader 204 }
    else next r { x with w := w4 }

/-- The Go method `RegisterRoutes`; `httprouter method path h` stands for the
`httprouter` router on which `h` is registered for `method` and `path`. -/
def RegisterRoutes (httprouter : String → String → Handler → Handler)
    (defaultClient : externalapi.Client)
    (marshal : externalapi.CountrySearchResponse → Except String String) : Handler :=
  corsMiddleware
    (httprouter "GET" "/api/countries/search" (SearchCountryHandler defaultClient marshal))

/-- The digits of a decimal numeral read as a number; `none` for the empty list
and for a list with a character that is not a digit. -/
def parseDigits (ds : List Char) : Option Int :=
  if ds = [] ∨ ¬ ds.all Char.isDigit = true then none
  else some (ds.foldl (fun n c => 10 * n + ((c.toNat - '0'.toNat : Nat) : Int)) 0)

/-- The library function `strconv.Atoi` as its documentation describes it: an
optional sign followed by decimal digits, within the range of a 64-bit `int`;
everything else, the empty string included, is an error (`none`). -/
def Atoi (s : String) : Option Int :=
  let signed : Option Int :=
    match s.toList with
    | '-' :: ds => (parseDigits ds).map (fun n => -n)
    | '+' :: ds => parseDigits ds
    | ds => parseDigits ds
  signed.bind (fun v => if -(2 ^ 63) ≤ v ∧ v < 2 ^ 63 then some v else none)

/-- The fields `NewServer` sets in the `http.Server` it returns (durations in
seconds), with the `Server` its handler is bound to. -/
structure HttpServer where
  Addr : String
  Handler : Handler
  IdleTimeout : Nat
  ReadTimeout : Nat
  WriteTimeout : Nat
  bound : Server

/-- The Go function `NewServer`; `getenv` stands for `os.Getenv`, which gives the
empty string for a variable that is not set. -/
def NewServer (getenv : String → String)
    (httprouter : String → String → Handler → Handler)
    (defaultClient : externalapi.Client)
    (marshal : externalapi.CountrySearchResponse → Except String String) : HttpServer :=
  let port : Int :=
    match Atoi (getenv "PORT") with
    | some p => p
    | none => 8080
  let cache := cache.NewLRUCache 100
  let NewServer : Server := { port := port, cache := cache }
  { Addr := ":" ++ toString NewServer.port
    Handler := RegisterRoutes httprouter defaultClient marshal
    IdleTimeout := 60
    ReadTimeout := 10
    WriteTimeout := 30
    bound := NewServer }

/-- The names of the four headers `corsMiddleware` sets. -/
def corsKeys : List String :=
  ["Access-Control-Allow-Origin", "Access-Control-Allow-Methods",
    "Access-Control-Allow-Headers", "Access-Control-Allow-Credentials"]

/-- The library function `http.Redirect(w, r, url, code)` for a request of the
given method; `statusText` stands for `http.StatusText(code)`. -/
def httpRedirect (w : ResponseWriter) (method url : String) (code : Nat)
    (statusText : String) : ResponseWriter :=
  let hadCT := (w.header.find? (fun e => e.1 = "Content-Type")).isSome
  let w1 := w.HeaderSet "Location" url
  let w2 := if ¬ hadCT = true ∧ (method = "GET" ∨ method = "HEAD") then
      w1.HeaderSet "Content-Type" "text/html; charset=utf-8"
    else w1
  let w3 := w2.WriteHeader code
  if ¬ hadCT = true ∧ method = "GET" then
    w3.Write ("<a href=\"" ++ url ++ "\">" ++ statusText ++ "</a>.\n\n")
  else w3

/-- What the route tree of an `httprouter.Router` gives for a request: the
registered handle; a redirect to a fixed path (trailing slash or letter case);
the methods allowed for the path, for an `OPTIONS` request and for a method
that is not registered for it; or nothing. -/
inductive Routing where
  | handle : Routing
  | redirect : Nat → String → String → Routing
  | options : String → Routing
  | methodNotAllowed : String → Routing
  | notFound : Routing
deriving DecidableEq, Repr

/-- The library method `(*httprouter.Router).ServeHTTP` with the default
settings the code leaves in place (no custom `NotFound`, `MethodNotAllowed`,
`GlobalOPTIONS` or panic handler), for a router with one handle `h`: the
lookups in the route tree are the parameter `decision`, what is done with their
outcome is spelled out. -/
def httprouterServe (decision : Request → Routing) (h : Handler) : Handler :=
  fun r x =>
    match decision r with
    | Routing.handle => h r x
    | Routing.redirect code url statusText =>
      { x with w := httpRedirect x.w r.Method url code statusText }
    | Routing.options allow => { x with w := x.w.HeaderSet "Allow" allow }
    | Routing.methodNotAllowed allow =>
      { x with w := httpError (x.w.HeaderSet "Allow" allow) "Method Not Allowed" 405 }
    | Routing.notFound => { x with w := httpError x.w "404 page not found" 404 }

/-- The library type `httprouter.Router` as `RegisterRoutes` uses it:
`tree method path` stands for the route tree after `r.HandlerFunc(method, path, h)`. -/
def httprouter (tree : String → String → Request → Routing) :
    String → String → Handler → Handler :=
  fun method path h => httprouterServe (tree method path) h

/-- A route tree used in examples: the handle for the registered method and
path, the allowed methods for another method on the registered path, nothing
for any other path. -/
def oneRouteTree : String → String → Request → Routing :=
  fun method path r =>
    if r.Path = path then
      if r.Method = method then Routing.handle
      else if r.Method = "OPTIONS" then Routing.options (method ++ ", OPTIONS")
      else Routing.methodNotAllowed (method ++ ", OPTIONS")
    else Routing.notFound

/-- An encoder used in examples in place of `json.Marshal`. -/
def nameJSON (r : externalapi.CountrySearchResponse) : Except String String :=
  Except.ok ("\x7b\"name\":\"" ++ r.Name ++ "\"\x7d")

/-- A request with the given method and path and `name` as every query parameter. -/
def requestFor (method path name : String) : Request :=
  { Method := method, Path := path, Query := fun _ => name }

/-- The world before a request is served: the given cache and a fresh writer. -/
def worldOf (c : cache.LRUCache) : World :=
  { s := { port := 8080, cache := c }, w := ResponseWriter.fresh, fetched := [], exited := false }

/-- The cache of `TestSearchCountryHandler_ReturnsCachedData`: capacity 100 with
the record of France stored under `france`. -/
def franceCache : cache.LRUCache :=
  (cache.NewLRUCache 100).Set "france" (cache.GoAny.record ⟨"France", "Paris", "", 0⟩)

end server

namespace cache

/-- The value of the most recent `Set(k, _)` of a sequence of calls, if any. -/
def lastSet (ops : List Op) (k : String) : Option GoAny :=
  ops.foldl (fun acc op =>
    match op with
    | Op.set j v => if j = k then some v else acc
    | Op.get _ => acc) none

/-- The state of `Set` on a new key at the test `len(c.cache) > c.capacity`:
the node is allocated, entered in the key map and linked in by `addToHead`. -/
def LRUCache.setLinked (c : LRUCache) (key : String) (value : GoAny) : LRUCache :=
  let n := c.alloc
  let c1 := { c with
    heap := Function.update c.heap n ⟨key, value, none, none⟩
    alloc := c.alloc + 1 }
  let c2 := { c1 with cache := c1.cache.insert key n }
  c2.addToHead n

/-- The state of `Set` on an existing key at the call of `moveToHead`: the
value of the node `n` is replaced. -/
def LRUCache.setValue (c : LRUCache) (n : Nat) (value : GoAny) : LRUCache :=
  { c with heap := Function.update c.heap n { c.heap n with value := value } }

/-! ## Doubly-linked segments -/

lemma dll_cons (h : Nat → node) (prev nxt : Option Nat) (x : Nat) (xs : List Nat) :
    dll h prev (x :: xs) nxt ↔
      (h x).prev = prev ∧ (h x).next = headOr xs nxt ∧ dll h (some x) xs nxt := Iff.rfl

lemma headOr_none (l : List Nat) : headOr l none = l.head? := by
  cases l <;> rfl

lemma lastOr_append_singleton (l : List Nat) (a : Nat) (d : Option Nat) :
    lastOr (l ++ [a]) d = some a := by
  induction l generalizing d with
  | nil => rfl
  | cons x xs ih => simpa [lastOr] using ih (some x)

lemma eq_nil_or_snoc {α : Type} (l : List α) : l = [] ∨ ∃ L a, l = L ++ [a] := by
  rcases List.eq_nil_or_concat l with h | ⟨L, b, h⟩
  · exact Or.inl h
  · exact Or.inr ⟨L, b, by simpa using h⟩

lemma lastOr_none (l : List Nat) : lastOr l none = l.getLast? := by
  rcases eq_nil_or_snoc l with rfl | ⟨L, b, rfl⟩
  · rfl
  · simp [lastOr_append_singleton]

lemma headOr_append (l1 l2 : List Nat) (d : Option Nat) :
    headOr (l1 ++ l2) d = headOr l1 (headOr l2 d) := by
  cases l1 <;> rfl

lemma lastOr_cons_eq (x : Nat) (xs : List Nat) (d : Option Nat) :
    lastOr (x :: xs) d = lastOr xs (some x) := rfl

lemma dll_append (h : Nat → node) (prev nxt : Option Nat) (l1 l2 : List Nat) :
    dll h prev (l1 ++ l2) nxt ↔
      dll h prev l1 (headOr l2 nxt) ∧ dll h (lastOr l1 prev) l2 nxt := by
  induction l1 generalizing prev with
  | nil => simp [dll, lastOr]
  | cons x xs ih =>
    rw [List.cons_append, dll_cons, dll_cons, ih, headOr_append, lastOr_cons_eq]
    tauto

lemma dll_congr {h h1 : Nat → node} {prev nxt : Option Nat} {l : List Nat}
    (hl : ∀ p ∈ l, (h1 p).prev = (h p).prev ∧ (h1 p).next = (h p).next)
    (hd : dll h prev l nxt) : dll h1 prev l nxt := by
  induction l generalizing prev with
  | nil => trivial
  | cons x xs ih =>
    obtain ⟨hp, hn, hr⟩ := hd
    have hx := hl x (List.mem_cons_self x xs)
    exact ⟨hx.1.trans hp, hx.2.trans hn, ih (fun p hp1 => hl p (List.mem_cons_of_mem x hp1)) hr⟩

lemma dll_frame {h : Nat → node} {prev nxt : Option Nat} {l : List Nat} {q : Nat} (v : node)
    (hq : q ∉ l) (hd : dll h prev l nxt) : dll (Function.update h q v) prev l nxt := by
  refine dll_congr (fun p hp => ?_) hd
  have hne : p ≠ q := fun e => hq (e ▸ hp)
  simp [Function.update_noteq hne]

lemma dll_setNext_last {h : Nat → node} {prev x : Option Nat} {l : List Nat} {a : Nat}
    (y : Option Nat) (ha : a ∉ l) (hd : dll h prev (l ++ [a]) x) :
    dll (Function.update h a { h a with next := y }) prev (l ++ [a]) y := by
  rw [dll_append] at hd ⊢
  obtain ⟨h1, h2, -, -⟩ := hd
  refine ⟨dll_frame _ ha h1, ?_, ?_, trivial⟩
  · simpa using h2
  · simp [headOr]

lemma dll_setPrev_head {h : Nat → node} {x nxt : Option Nat} {l : List Nat} {b : Nat}
    (y : Option Nat) (hb : b ∉ l) (hd : dll h x (b :: l) nxt) :
    dll (Function.update h b { h b with prev := y }) y (b :: l) nxt := by
  obtain ⟨-, h2, h3⟩ := hd
  refine ⟨by simp, by simpa using h2, dll_frame _ hb h3⟩

lemma walkNext_of_dll (h : Nat → node) (prev : Option Nat) (l : List Nat) (fuel : Nat)
    (hd : dll h prev l none) (hf : l.length ≤ fuel) :
    LRUCache.walkNext h fuel l.head? = some l := by
  induction l generalizing prev fuel with
  | nil => cases fuel <;> rfl
  | cons x xs ih =>
    obtain ⟨-, hn, hr⟩ := hd
    cases fuel with
    | zero => simp at hf
    | succ f =>
      have := ih (some x) f hr (by simpa using hf)
      simp [LRUCache.walkNext, hn, headOr_none, this]

lemma walkPrev_of_dll (h : Nat → node) (nxt : Option Nat) (l : List Nat) (fuel : Nat)
    (hd : dll h none l nxt) (hf : l.length ≤ fuel) :
    LRUCache.walkPrev h fuel l.getLast? = some l.reverse := by
  induction l using List.reverseRecOn generalizing nxt fuel with
  | nil => cases fuel <;> rfl
  | append_singleton L a ih =>
    rw [dll_append] at hd
    obtain ⟨h1, h2, -, -⟩ := hd
    cases fuel with
    | zero => simp at hf
    | succ f =>
      have := ih (some a) f h1 (by simpa using hf)
      simp [LRUCache.walkPrev, h2, lastOr_none, this]

/-! ## The recency list as a list of addresses -/

lemma removeNode_frame (c : LRUCache) (n : Nat) :
    (c.removeNode n).capacity = c.capacity ∧ (c.removeNode n).cache = c.cache ∧
    (c.removeNode n).alloc = c.alloc ∧
    ∀ p, ((c.removeNode n).heap p).key = (c.heap p).key ∧
      ((c.removeNode n).heap p).value = (c.heap p).value := by
  unfold LRUCache.removeNode
  cases hp : (c.heap n).prev <;> simp only <;> split <;>
    simp [Function.update_apply] <;> intro p <;> split_ifs <;> simp_all

lemma addToHead_frame (c : LRUCache) (n : Nat) :
    (c.addToHead n).capacity = c.capacity ∧ (c.addToHead n).cache = c.cache ∧
    (c.addToHead n).alloc = c.alloc ∧
    ∀ p, ((c.addToHead n).heap p).key = (c.heap p).key ∧
      ((c.addToHead n).heap p).value = (c.heap p).value := by
  unfold LRUCache.addToHead
  cases hh : c.head <;> cases ht : c.tail <;>
    simp [Function.update_apply] <;> intro p <;> split_ifs <;> simp_all

lemma Links.removeNode {c : LRUCache} {l : List Nat} {n : Nat}
    (hl : Links c l) (hn : n ∈ l) : Links (c.removeNode n) (l.erase n) := by
  obtain ⟨l1, l2, rfl⟩ := List.append_of_mem hn
  have hnd := hl.nodup
  have hn1 : n ∉ l1 := fun h => by
    have := (List.nodup_append.1 hnd).2.2
    exact this h (List.mem_cons_self n l2)
  have hn2 : n ∉ l2 := ((List.nodup_cons.1 (List.nodup_append.1 hnd).2.1)).1
  have hnd1 : (l1 ++ l2).Nodup := by
    have := hnd.sublist (List.Sublist.append_left (List.sublist_cons_self n l2) l1)
    exact this
  have he : (l1 ++ n :: l2).erase n = l1 ++ l2 := by
    rw [List.erase_append_right _ hn1, List.erase_cons_head]
  rw [he]
  have hc := hl.chain
  rw [dll_append, dll_cons] at hc
  obtain ⟨hc1, hp, hnx, hc2⟩ := hc
  have hhead := hl.head_eq
  have htail := hl.tail_eq
  rcases eq_nil_or_snoc l1 with rfl | ⟨L, a, rfl⟩
  · cases l2 with
    | nil =>
      refine ⟨hnd1, ?_, ?_, trivial⟩ <;>
        simp_all [LRUCache.removeNode, lastOr, headOr]
    | cons b R =>
      have hbn : b ≠ n := fun e => hn2 (e ▸ List.mem_cons_self b R)
      have hbR : b ∉ R := (List.nodup_cons.1 hnd1).1
      simp only [lastOr, headOr] at hp hnx
      refine ⟨hnd1, ?_, ?_, ?_⟩
      · simp [LRUCache.removeNode, hp, hnx]
      · simp [LRUCache.removeNode, hp, hnx] at htail ⊢
        exact htail
      · simp only [LRUCache.removeNode, hp, hnx, List.nil_append]
        exact dll_setPrev_head none hbR hc2
  · have han : a ≠ n := fun e => hn1 (e ▸ by simp)
    have haL : a ∉ L := by
      have := (List.nodup_append.1 hnd1).1
      have := (List.nodup_append.1 this).2.2
      exact fun h => this h (List.mem_singleton_self a)
    have hal2 : a ∉ l2 := fun h => (List.nodup_append.1 hnd1).2.2 (by simp) h
    rw [lastOr_append_singleton] at hp
    cases l2 with
    | nil =>
      simp only [headOr] at hnx hc1
      refine ⟨hnd1, ?_, ?_, ?_⟩
      · simp [LRUCache.removeNode, hp, hnx, Function.update_noteq han.symm] at hhead ⊢
        exact hhead
      · simp [LRUCache.removeNode, hp, hnx, Function.update_noteq han.symm]
      · simp only [LRUCache.removeNode, hp, hnx, Function.update_noteq han.symm,
          List.append_nil]
        exact dll_setNext_last none haL hc1
    | cons b R =>
      have hbn : b ≠ n := fun e => hn2 (e ▸ List.mem_cons_self b R)
      have hbR : b ∉ R := (List.nodup_cons.1 (List.nodup_append.1 hnd1).2.1).1
      have hbL : b ∉ L ++ [a] := fun h =>
        (List.nodup_append.1 hnd1).2.2 h (List.mem_cons_self b R)
      simp only [headOr] at hnx hc1
      refine ⟨hnd1, ?_, ?_, ?_⟩
      · simp [LRUCache.removeNode, hp, hnx, Function.update_noteq han.symm] at hhead ⊢
        exact hhead
      · simp [LRUCache.removeNode, hp, hnx, Function.update_noteq han.symm] at htail ⊢
        exact htail
      · simp only [LRUCache.removeNode, hp, hnx, Function.update_noteq han.symm]
        rw [dll_append]
        refine ⟨dll_frame _ hbL (dll_setNext_last _ haL hc1), ?_⟩
        rw [lastOr_append_singleton]
        exact dll_setPrev_head _ hbR (dll_frame _ hal2 hc2)

lemma Links.addToHead {c : LRUCache} {l : List Nat} {n : Nat}
    (hl : Links c l) (hn : n ∉ l) : Links (c.addToHead n) (n :: l) := by
  have hhead := hl.head_eq
  have htail := hl.tail_eq
  have hc := hl.chain
  cases l with
  | nil =>
    simp only [List.head?_nil, List.getLast?_nil] at hhead htail
    refine ⟨List.nodup_singleton n, ?_, ?_, ?_⟩ <;>
      simp [LRUCache.addToHead, hhead, htail, dll, headOr]
  | cons b R =>
    have hbn : b ≠ n := fun e => hn (e ▸ List.mem_cons_self b R)
    have hbR : b ∉ R := (List.nodup_cons.1 hl.nodup).1
    obtain ⟨t, ht⟩ : ∃ t, c.tail = some t := by
      rw [htail]; exact ⟨(b :: R).getLast (by simp), List.getLast?_eq_getLast _ _⟩
    simp only [List.head?_cons] at hhead
    refine ⟨List.nodup_cons.2 ⟨hn, hl.nodup⟩, ?_, ?_, ?_⟩
    · simp [LRUCache.addToHead, hhead, ht]
    · simp only [LRUCache.addToHead, hhead, ht]
      rw [← ht, htail]
      simp [List.getLast?_cons_cons]
    · simp only [LRUCache.addToHead, hhead, ht]
      rw [dll_cons]
      refine ⟨by simp [Function.update_noteq hbn.symm], by simp [Function.update_noteq hbn.symm, headOr], ?_⟩
      exact dll_setPrev_head _ hbR (dll_frame _ hn hc)

/-! ## The representation invariant -/

lemma Rep.keys_nodup {c : LRUCache} {l : List Nat} (h : Rep c l) :
    (l.map fun p => (c.heap p).key).Nodup :=
  h.keys_perm.nodup_iff.1 c.cache.keys_nodup

lemma Rep.len_eq {c : LRUCache} {l : List Nat} (h : Rep c l) : c.len = l.length := by
  simpa [LRUCache.len] using h.keys_perm.length_eq

lemma Rep.lookup_some {c : LRUCache} {l : List Nat} (h : Rep c l) {k : String} {n : Nat}
    (hk : c.cache.lookup k = some n) : n ∈ l ∧ (c.heap n).key = k := by
  have hmem : k ∈ c.cache.keys := by
    rw [← AList.mem_keys, ← AList.lookup_isSome, hk]; rfl
  obtain ⟨p, hp, rfl⟩ := List.mem_map.1 (h.keys_perm.subset hmem)
  have := h.lookup_eq p hp
  rw [hk] at this
  cases this
  exact ⟨hp, rfl⟩

lemma Rep.lookup_none {c : LRUCache} {l : List Nat} (h : Rep c l) {k : String}
    (hk : c.cache.lookup k = none) : ∀ p ∈ l, (c.heap p).key ≠ k := by
  intro p hp e
  have := h.lookup_eq p hp
  rw [e, hk] at this
  cases this

lemma Rep.key_inj {c : LRUCache} {l : List Nat} (h : Rep c l) {p q : Nat}
    (hp : p ∈ l) (hq : q ∈ l) (e : (c.heap p).key = (c.heap q).key) : p = q := by
  have h1 := h.lookup_eq p hp
  rw [e, h.lookup_eq q hq] at h1
  cases h1
  rfl

lemma Links.congr {c c1 : LRUCache} {l : List Nat} (hl : Links c l)
    (hh : c1.head = c.head) (ht : c1.tail = c.tail)
    (hp : ∀ p ∈ l, (c1.heap p).prev = (c.heap p).prev ∧ (c1.heap p).next = (c.heap p).next) :
    Links c1 l :=
  ⟨hl.nodup, hh.trans hl.head_eq, ht.trans hl.tail_eq, dll_congr hp hl.chain⟩

lemma rep_new (C : Int) : Rep (NewLRUCache C) [] := by
  refine ⟨⟨List.nodup_nil, rfl, rfl, trivial⟩, ?_, ?_, ?_⟩
  · simp [NewLRUCache]
  · intro p hp; cases hp
  · intro p hp; cases hp

lemma moveToHead_frame (c : LRUCache) (n : Nat) :
    (c.moveToHead n).capacity = c.capacity ∧ (c.moveToHead n).cache = c.cache ∧
    (c.moveToHead n).alloc = c.alloc ∧
    ∀ p, ((c.moveToHead n).heap p).key = (c.heap p).key ∧
      ((c.moveToHead n).heap p).value = (c.heap p).value := by
  obtain ⟨a1, a2, a3, a4⟩ := removeNode_frame c n
  obtain ⟨b1, b2, b3, b4⟩ := addToHead_frame (c.removeNode n) n
  refine ⟨b1.trans a1, b2.trans a2, b3.trans a3, fun p => ?_⟩
  exact ⟨(b4 p).1.trans (a4 p).1, (b4 p).2.trans (a4 p).2⟩

lemma Rep.moveToHead {c : LRUCache} {l : List Nat} {n : Nat} (h : Rep c l) (hn : n ∈ l) :
    Rep (c.moveToHead n) (n :: l.erase n) := by
  obtain ⟨-, f2, f3, f4⟩ := moveToHead_frame c n
  have hk : (fun p => ((c.moveToHead n).heap p).key) = fun p => (c.heap p).key :=
    funext fun p => (f4 p).1
  have hsub : ∀ p ∈ n :: l.erase n, p ∈ l := fun p hp =>
    (List.perm_cons_erase hn).symm.subset hp
  refine ⟨(h.links.removeNode hn).addToHead (List.Nodup.not_mem_erase h.links.nodup), ?_, ?_, ?_⟩
  · rw [f2, hk]
    exact h.keys_perm.trans ((List.perm_cons_erase hn).map _)
  · intro p hp
    rw [f2, (f4 p).1]
    exact h.lookup_eq p (hsub p hp)
  · intro p hp
    rw [f3]
    exact h.fresh p (hsub p hp)

lemma evict_eq {c : LRUCache} {a : Nat} (ht : c.tail = some a) :
    c.evict = { c.removeNode a with
      cache := (c.removeNode a).cache.erase ((c.removeNode a).heap a).key } := by
  simp [LRUCache.evict, ht]

lemma map_erase_of_nodup {α β : Type} [DecidableEq α] [DecidableEq β] (f : α → β)
    (l : List α) (n : α) (hnd : (l.map f).Nodup) (hn : n ∈ l) :
    (l.erase n).map f = (l.map f).erase (f n) := by
  induction l with
  | nil => cases hn
  | cons x xs ih =>
    by_cases hx : x = n
    · subst hx; simp
    · have hn1 : n ∈ xs := by
        rcases List.mem_cons.1 hn with e | e
        · exact absurd e.symm hx
        · exact e
      have hnd1 : f x ∉ xs.map f ∧ (xs.map f).Nodup := List.nodup_cons.1 hnd
      have hfx : f x ≠ f n := fun e => hnd1.1 (e ▸ List.mem_map_of_mem f hn1)
      rw [List.erase_cons_tail (by simpa using hx), List.map_cons, List.map_cons,
        List.erase_cons_tail (by simpa using hfx), ih hnd1.2 hn1]

lemma Rep.evict {c : LRUCache} {L : List Nat} {a : Nat} (h : Rep c (L ++ [a])) :
    Rep c.evict L ∧ c.evict.capacity = c.capacity ∧ c.evict.alloc = c.alloc ∧
      (∀ p, (c.evict.heap p).key = (c.heap p).key ∧ (c.evict.heap p).value = (c.heap p).value) ∧
      c.evict.cache = c.cache.erase (c.heap a).key := by
  have ht : c.tail = some a := by rw [h.links.tail_eq]; simp
  obtain ⟨f1, f2, f3, f4⟩ := removeNode_frame c a
  have hk : (fun p => ((c.removeNode a).heap p).key) = fun p => (c.heap p).key :=
    funext fun p => (f4 p).1
  have haL : a ∉ L := fun hm =>
    (List.nodup_append.1 h.links.nodup).2.2 hm (List.mem_singleton_self a)
  have he : (L ++ [a]).erase a = L := by
    rw [List.erase_append_right _ haL]; simp
  have hl := h.links.removeNode (show a ∈ L ++ [a] by simp)
  rw [he] at hl
  have hme := map_erase_of_nodup (fun p => (c.heap p).key) (L ++ [a]) a h.keys_nodup (by simp)
  rw [he] at hme
  rw [evict_eq ht]
  refine ⟨⟨⟨hl.nodup, hl.head_eq, hl.tail_eq, hl.chain⟩, ?_, ?_, ?_⟩, f1, f3, f4, ?_⟩
  · show ((c.removeNode a).cache.erase ((c.removeNode a).heap a).key).keys.Perm
      (L.map fun p => ((c.removeNode a).heap p).key)
    rw [hk, f2, (f4 a).1, AList.keys_erase, hme]
    exact h.keys_perm.erase _
  · intro p hp
    show ((c.removeNode a).cache.erase ((c.removeNode a).heap a).key).lookup
      ((c.removeNode a).heap p).key = some p
    rw [f2, (f4 a).1, (f4 p).1]
    have hne : (c.heap p).key ≠ (c.heap a).key := fun e =>
      haL ((h.key_inj (by simp [hp]) (by simp) e) ▸ hp)
    rw [AList.lookup_erase_ne hne]
    exact h.lookup_eq p (by simp [hp])
  · intro p hp
    show p < (c.removeNode a).alloc
    rw [f3]
    exact h.fresh p (by simp [hp])
  · show (c.removeNode a).cache.erase ((c.removeNode a).heap a).key = _
    rw [f2, (f4 a).1]

lemma Rep.get_hit {c : LRUCache} {l : List Nat} {k : String} {n : Nat} (h : Rep c l)
    (hk : c.cache.lookup k = some n) :
    c.Get k = (c.moveToHead n, (c.heap n).value, true) ∧
      Rep (c.moveToHead n) (n :: l.erase n) ∧
      (c.moveToHead n).capacity = c.capacity ∧ ∀ p, (c.moveToHead n).kv p = c.kv p := by
  obtain ⟨f1, -, -, f4⟩ := moveToHead_frame c n
  refine ⟨?_, h.moveToHead (h.lookup_some hk).1, f1, fun p => ?_⟩
  · simp [LRUCache.Get, hk, (f4 n).2]
  · simp [LRUCache.kv, (f4 p).1, (f4 p).2]

lemma Rep.get_miss {c : LRUCache} {k : String} (hk : c.cache.lookup k = none) :
    c.Get k = (c, GoAny.nil, false) := by
  simp [LRUCache.Get, hk]

lemma Rep.set_hit {c : LRUCache} {l : List Nat} {k : String} {n : Nat} (h : Rep c l)
    (hk : c.cache.lookup k = some n) (v : GoAny) :
    Rep (c.Set k v) (n :: l.erase n) ∧ (c.Set k v).capacity = c.capacity ∧
      (c.Set k v).kv n = (k, v) ∧ ∀ p, p ≠ n → (c.Set k v).kv p = c.kv p := by
  obtain ⟨hn, hkey⟩ := h.lookup_some hk
  obtain ⟨c1, hc1⟩ : ∃ c1 : LRUCache, c1 =
      { c with heap := Function.update c.heap n { c.heap n with value := v } } := ⟨_, rfl⟩
  have hset : c.Set k v = c1.moveToHead n := by simp [LRUCache.Set, hk, hc1]
  have hcap : c1.capacity = c.capacity := by rw [hc1]
  have hcache : c1.cache = c.cache := by rw [hc1]
  have halloc : c1.alloc = c.alloc := by rw [hc1]
  have hn1 : c1.heap n = { c.heap n with value := v } := by rw [hc1]; simp
  have hp1 : ∀ p, p ≠ n → c1.heap p = c.heap p := by
    intro p hp; rw [hc1]; simp [Function.update_noteq hp]
  have hkeys : ∀ p, (c1.heap p).key = (c.heap p).key := by
    intro p
    by_cases e : p = n
    · subst e; rw [hn1]
    · rw [hp1 p e]
  have hk1 : (fun p => (c1.heap p).key) = fun p => (c.heap p).key := funext hkeys
  have h1 : Rep c1 l := by
    refine ⟨h.links.congr (by rw [hc1]) (by rw [hc1]) (fun p _ => ?_), ?_, ?_, ?_⟩
    · by_cases e : p = n
      · subst e; rw [hn1]; exact ⟨rfl, rfl⟩
      · rw [hp1 p e]; exact ⟨rfl, rfl⟩
    · rw [hk1, hcache]; exact h.keys_perm
    · intro p hp; rw [hkeys p, hcache]; exact h.lookup_eq p hp
    · intro p hp; rw [halloc]; exact h.fresh p hp
  obtain ⟨f1, -, -, f4⟩ := moveToHead_frame c1 n
  rw [hset]
  refine ⟨h1.moveToHead hn, f1.trans hcap, ?_, fun p hp => ?_⟩
  · show (((c1.moveToHead n).heap n).key, ((c1.moveToHead n).heap n).value) = (k, v)
    rw [(f4 n).1, (f4 n).2, hn1, ← hkey]
  · show (((c1.moveToHead n).heap p).key, ((c1.moveToHead n).heap p).value) = c.kv p
    rw [(f4 p).1, (f4 p).2, hp1 p hp]; rfl

lemma Rep.set_new {c : LRUCache} {l : List Nat} {k : String} (h : Rep c l)
    (hk : c.cache.lookup k = none) (v : GoAny) :
    Rep (c.Set k v)
        (if ((l.length + 1 : Nat) : Int) > c.capacity then (c.alloc :: l).dropLast
          else c.alloc :: l) ∧
      (c.Set k v).capacity = c.capacity ∧
      (c.Set k v).kv c.alloc = (k, v) ∧ ∀ p, p ≠ c.alloc → (c.Set k v).kv p = c.kv p := by
  obtain ⟨c2, hc2⟩ : ∃ c2 : LRUCache, c2 = { c with
      heap := Function.update c.heap c.alloc ⟨k, v, none, none⟩
      alloc := c.alloc + 1
      cache := c.cache.insert k c.alloc } := ⟨_, rfl⟩
  have hset : c.Set k v =
      if ((c2.addToHead c.alloc).len : Int) > (c2.addToHead c.alloc).capacity
      then (c2.addToHead c.alloc).evict else c2.addToHead c.alloc := by
    simp [LRUCache.Set, hk, hc2]
  have hcap2 : c2.capacity = c.capacity := by rw [hc2]
  have hcache2 : c2.cache = c.cache.insert k c.alloc := by rw [hc2]
  have halloc2 : c2.alloc = c.alloc + 1 := by rw [hc2]
  have hn2 : c2.heap c.alloc = ⟨k, v, none, none⟩ := by rw [hc2]; simp
  have hp2 : ∀ p, p ≠ c.alloc → c2.heap p = c.heap p := by
    intro p hp; rw [hc2]; simp [Function.update_noteq hp]
  have hfresh : c.alloc ∉ l := fun hm => lt_irrefl _ (h.fresh _ hm)
  have hne : ∀ p ∈ l, p ≠ c.alloc := fun p hp e => hfresh (e ▸ hp)
  have hl2 : Links c2 l :=
    h.links.congr (by rw [hc2]) (by rw [hc2]) (fun p hp => by rw [hp2 p (hne p hp)]; exact ⟨rfl, rfl⟩)
  obtain ⟨f1, f2, f3, f4⟩ := addToHead_frame c2 c.alloc
  have hkn : ((c2.addToHead c.alloc).heap c.alloc).key = k := by
    rw [(f4 _).1, hn2]
  have hkp : ∀ p ∈ l, ((c2.addToHead c.alloc).heap p).key = (c.heap p).key := by
    intro p hp
    rw [(f4 _).1, hp2 p (hne p hp)]
  have hknot : k ∉ c.cache.keys := by
    rw [← AList.mem_keys]; exact AList.lookup_eq_none.1 hk
  have h3 : Rep (c2.addToHead c.alloc) (c.alloc :: l) := by
    refine ⟨hl2.addToHead hfresh, ?_, ?_, ?_⟩
    · rw [f2, List.map_cons, hkn, List.map_congr_left hkp, hcache2,
        AList.keys_insert, List.erase_of_not_mem hknot]
      exact h.keys_perm.cons k
    · intro p hp
      rw [f2, hcache2]
      rcases List.mem_cons.1 hp with e | e
      · rw [e, hkn, AList.lookup_insert]
      · rw [hkp p e, AList.lookup_insert_ne (h.lookup_none hk p e)]
        exact h.lookup_eq p e
    · intro p hp
      rw [f3, halloc2]
      rcases List.mem_cons.1 hp with e | e
      · omega
      · have := h.fresh p e; omega
  have hkv : (c2.addToHead c.alloc).kv c.alloc = (k, v) := by
    show (((c2.addToHead c.alloc).heap c.alloc).key, ((c2.addToHead c.alloc).heap c.alloc).value)
      = (k, v)
    rw [(f4 _).1, (f4 _).2, hn2]
  have hkvp : ∀ p, p ≠ c.alloc → (c2.addToHead c.alloc).kv p = c.kv p := by
    intro p hp
    show (((c2.addToHead c.alloc).heap p).key, ((c2.addToHead c.alloc).heap p).value) = c.kv p
    rw [(f4 _).1, (f4 _).2, hp2 p hp]; rfl
  have hlen : (c2.addToHead c.alloc).len = l.length + 1 := by simpa using h3.len_eq
  have hcap : (c2.addToHead c.alloc).capacity = c.capacity := f1.trans hcap2
  rw [hset, hlen, hcap]
  split_ifs with hgt
  · obtain ⟨L, a, hLa⟩ : ∃ L a, c.alloc :: l = L ++ [a] := by
      rcases eq_nil_or_snoc (c.alloc :: l) with e | e
      · cases e
      · exact e
    rw [hLa] at h3 ⊢
    obtain ⟨g1, g2, -, g4, -⟩ := h3.evict
    rw [List.dropLast_concat]
    refine ⟨g1, g2.trans hcap, ?_, fun p hp => ?_⟩
    · rw [← hkv]
      show (_, _) = (_, _)
      rw [(g4 _).1, (g4 _).2]
    · rw [← hkvp p hp]
      show (_, _) = (_, _)
      rw [(g4 _).1, (g4 _).2]
  · exact ⟨h3, hcap, hkv, hkvp⟩

/-! ## Reading a represented state -/

lemma Rep.forward_eq {c : LRUCache} {l : List Nat} (h : Rep c l) (fuel : Nat)
    (hf : c.len ≤ fuel) : LRUCache.walkNext c.heap fuel c.head = some l := by
  rw [h.links.head_eq]
  exact walkNext_of_dll _ _ _ _ h.links.chain (h.len_eq ▸ hf)

lemma Rep.backward_eq {c : LRUCache} {l : List Nat} (h : Rep c l) (fuel : Nat)
    (hf : c.len ≤ fuel) : LRUCache.walkPrev c.heap fuel c.tail = some l.reverse := by
  rw [h.links.tail_eq]
  exact walkPrev_of_dll _ _ _ _ h.links.chain (h.len_eq ▸ hf)

lemma Rep.order_eq {c : LRUCache} {l : List Nat} (h : Rep c l) :
    c.order = some (l.map fun p => (c.heap p).key) := by
  simp [LRUCache.order, LRUCache.forward, h.forward_eq c.len le_rfl]

lemma Rep.entries_eq {c : LRUCache} {l : List Nat} (h : Rep c l) :
    c.entries = some (l.map c.kv) := by
  simp [LRUCache.entries, LRUCache.forward, h.forward_eq c.len le_rfl, LRUCache.kv]

lemma Rep.peek_mem {c : LRUCache} {l : List Nat} (h : Rep c l) {p : Nat} (hp : p ∈ l) :
    c.peek (c.heap p).key = some (c.heap p).value := by
  simp [LRUCache.peek, h.lookup_eq p hp]

lemma Rep.peek_none {c : LRUCache} {l : List Nat} (h : Rep c l) {k : String}
    (hk : ∀ p ∈ l, (c.heap p).key ≠ k) : c.peek k = none := by
  cases hl : c.cache.lookup k with
  | none => simp [LRUCache.peek, hl]
  | some n => exact absurd (h.lookup_some hl).2 (hk n (h.lookup_some hl).1)

lemma Rep.mem_cache_iff {c : LRUCache} {l : List Nat} (h : Rep c l) (k : String) :
    k ∈ c.cache ↔ k ∈ l.map fun p => (c.heap p).key := by
  rw [AList.mem_keys]
  exact h.keys_perm.mem_iff

/-! ## Reachable states -/

lemma run_append (c : LRUCache) (ops : List Op) (op : Op) :
    run c (ops ++ [op]) = step (run c ops) op := by
  simp [run, List.foldl_append]

lemma Reachable.new (C : Int) : Reachable C (NewLRUCache C) := ⟨[], rfl⟩

lemma Reachable.step_reach {C : Int} {c : LRUCache} (h : Reachable C c) (op : Op) :
    Reachable C (step c op) := by
  obtain ⟨ops, rfl⟩ := h
  exact ⟨ops ++ [op], run_append _ _ _⟩

lemma Reachable.get {C : Int} {c : LRUCache} (h : Reachable C c) (k : String) :
    Reachable C (c.Get k).1 := h.step_reach (Op.get k)

lemma Reachable.set {C : Int} {c : LRUCache} (h : Reachable C c) (k : String) (v : GoAny) :
    Reachable C (c.Set k v) := h.step_reach (Op.set k v)

/-- One call keeps a represented state represented, keeps the capacity field and
keeps the length of the list within the capacity. -/
lemma Rep.step {c : LRUCache} {l : List Nat} (h : Rep c l)
    (hlen : (l.length : Int) ≤ max c.capacity 0) (op : Op) :
    ∃ l1, Rep (step c op) l1 ∧ (step c op).capacity = c.capacity ∧
      (l1.length : Int) ≤ max c.capacity 0 := by
  cases op with
  | get k =>
    cases hk : c.cache.lookup k with
    | none =>
      have e : cache.step c (Op.get k) = c := by simp [cache.step, Rep.get_miss hk]
      rw [e]
      exact ⟨l, h, rfl, hlen⟩
    | some n =>
      obtain ⟨e, hr, hc, -⟩ := h.get_hit hk
      have e1 : cache.step c (Op.get k) = c.moveToHead n := by simp [cache.step, e]
      rw [e1]
      refine ⟨_, hr, hc, ?_⟩
      have hn := (h.lookup_some hk).1
      have : (n :: l.erase n).length = l.length := (List.perm_cons_erase hn).length_eq.symm
      rw [this]; exact hlen
  | set k v =>
    cases hk : c.cache.lookup k with
    | some n =>
      obtain ⟨hr, hc, -, -⟩ := h.set_hit hk v
      refine ⟨_, hr, hc, ?_⟩
      have hn := (h.lookup_some hk).1
      have : (n :: l.erase n).length = l.length := (List.perm_cons_erase hn).length_eq.symm
      rw [this]; exact hlen
    | none =>
      obtain ⟨hr, hc, -, -⟩ := h.set_new hk v
      refine ⟨_, hr, hc, ?_⟩
      split_ifs with hgt
      · simp only [List.length_dropLast, List.length_cons, Nat.add_sub_cancel]
        exact hlen
      · simp only [List.length_cons]
        push_cast at hgt ⊢
        exact le_max_of_le_left (not_lt.1 hgt)

lemma Rep.run {c : LRUCache} {l : List Nat} (h : Rep c l)
    (hlen : (l.length : Int) ≤ max c.capacity 0) (ops : List Op) :
    ∃ l1, Rep (run c ops) l1 ∧ (run c ops).capacity = c.capacity ∧
      (l1.length : Int) ≤ max c.capacity 0 := by
  induction ops using List.reverseRecOn with
  | nil => exact ⟨l, h, rfl, hlen⟩
  | append_singleton ops op ih =>
    obtain ⟨l1, h1, hc1, hl1⟩ := ih
    rw [run_append]
    obtain ⟨l2, h2, hc2, hl2⟩ := h1.step (hc1 ▸ hl1) op
    exact ⟨l2, h2, hc2.trans hc1, hc1 ▸ hl2⟩

lemma Reachable.rep {C : Int} {c : LRUCache} (h : Reachable C c) :
    ∃ l, Rep c l ∧ c.capacity = C ∧ (l.length : Int) ≤ max C 0 := by
  obtain ⟨ops, rfl⟩ := h
  exact (rep_new C).run (by simp [NewLRUCache]) ops

lemma Links.head_prev {c : LRUCache} {l : List Nat} (h : Links c l) {p : Nat}
    (hp : c.head = some p) : (c.heap p).prev = none := by
  cases l with
  | nil => rw [h.head_eq] at hp; cases hp
  | cons x xs =>
    rw [h.head_eq] at hp
    simp only [List.head?_cons, Option.some.injEq] at hp
    subst hp
    exact h.chain.1

lemma Links.tail_next {c : LRUCache} {l : List Nat} (h : Links c l) {p : Nat}
    (hp : c.tail = some p) : (c.heap p).next = none := by
  rcases eq_nil_or_snoc l with rfl | ⟨L, a, rfl⟩
  · rw [h.tail_eq] at hp; cases hp
  · rw [h.tail_eq] at hp
    simp at hp
    subst hp
    have := h.chain
    rw [dll_append] at this
    exact this.2.2.1

lemma Rep.head_none_iff {c : LRUCache} {l : List Nat} (h : Rep c l) :
    (c.head = none ↔ l = []) ∧ (c.tail = none ↔ l = []) := by
  rw [h.links.head_eq, h.links.tail_eq]
  exact ⟨List.head?_eq_none_iff, List.getLast?_eq_none_iff⟩

/-! ## The represented list of entries -/

lemma kv_fst_map (c : LRUCache) (l : List Nat) :
    (l.map c.kv).map Prod.fst = l.map fun p => (c.heap p).key := by
  simp [LRUCache.kv, Function.comp_def]

lemma Abs.entries_eq_abs {c : LRUCache} {es : List (String × GoAny)} (h : Abs c es) :
    c.entries = some es := by
  obtain ⟨l, hr, rfl⟩ := h
  exact hr.entries_eq

lemma Abs.order_eq_abs {c : LRUCache} {es : List (String × GoAny)} (h : Abs c es) :
    c.order = some (es.map Prod.fst) := by
  obtain ⟨l, hr, rfl⟩ := h
  rw [kv_fst_map]; exact hr.order_eq

lemma Abs.len_eq_abs {c : LRUCache} {es : List (String × GoAny)} (h : Abs c es) :
    c.len = es.length := by
  obtain ⟨l, hr, rfl⟩ := h
  simpa using hr.len_eq

lemma Abs.nodup {c : LRUCache} {es : List (String × GoAny)} (h : Abs c es) :
    (es.map Prod.fst).Nodup := by
  obtain ⟨l, hr, rfl⟩ := h
  rw [kv_fst_map]; exact hr.keys_nodup

lemma Abs.mem_iff {c : LRUCache} {es : List (String × GoAny)} (h : Abs c es) (j : String) :
    j ∈ c.cache ↔ j ∈ es.map Prod.fst := by
  obtain ⟨l, hr, rfl⟩ := h
  rw [kv_fst_map]; exact hr.mem_cache_iff j

lemma Abs.lookup_none_iff {c : LRUCache} {es : List (String × GoAny)} (h : Abs c es)
    (j : String) : c.cache.lookup j = none ↔ j ∉ es.map Prod.fst := by
  rw [AList.lookup_eq_none, h.mem_iff]

lemma Abs.peek_eq {c : LRUCache} {es : List (String × GoAny)} (h : Abs c es) (j : String) :
    c.peek j = assoc es j := by
  obtain ⟨l, hr, rfl⟩ := h
  unfold assoc
  cases hf : (l.map c.kv).find? (fun e => e.1 = j) with
  | none =>
    rw [List.find?_eq_none] at hf
    rw [Option.map_none']
    refine hr.peek_none (fun p hp e => ?_)
    exact hf (c.kv p) (List.mem_map_of_mem _ hp) (by simpa [LRUCache.kv] using e)
  | some e =>
    have h1 := List.find?_some hf
    obtain ⟨q, hq, rfl⟩ := List.mem_map.1 (List.mem_of_find?_eq_some hf)
    have h2 : (c.heap q).key = j := by simpa [LRUCache.kv] using h1
    rw [← h2, hr.peek_mem hq]; rfl

lemma Abs.tailKey_eq {c : LRUCache} {es : List (String × GoAny)} (h : Abs c es) :
    c.tailKey = (es.map Prod.fst).getLast? := by
  obtain ⟨l, hr, rfl⟩ := h
  rw [kv_fst_map, List.getLast?_map, LRUCache.tailKey, hr.links.tail_eq]

lemma Abs.headKey_eq {c : LRUCache} {es : List (String × GoAny)} (h : Abs c es) :
    c.headKey = (es.map Prod.fst).head? := by
  obtain ⟨l, hr, rfl⟩ := h
  rw [kv_fst_map, List.head?_map, LRUCache.headKey, hr.links.head_eq]

lemma assoc_eq_some_of_mem {es : List (String × GoAny)} (hnd : (es.map Prod.fst).Nodup)
    {k : String} {v : GoAny} (hm : (k, v) ∈ es) : assoc es k = some v := by
  induction es with
  | nil => cases hm
  | cons e es ih =>
    have hnd1 : e.1 ∉ es.map Prod.fst ∧ (es.map Prod.fst).Nodup := List.nodup_cons.1 hnd
    rcases List.mem_cons.1 hm with rfl | hm1
    · simp [assoc]
    · have hne : e.1 ≠ k := fun e1 => hnd1.1 (e1 ▸ List.mem_map_of_mem Prod.fst hm1)
      have := ih hnd1.2 hm1
      simpa [assoc, List.find?_cons, hne] using this

lemma assoc_eq_some_iff {es : List (String × GoAny)} (hnd : (es.map Prod.fst).Nodup)
    {k : String} {v : GoAny} : assoc es k = some v ↔ (k, v) ∈ es := by
  refine ⟨fun h => ?_, assoc_eq_some_of_mem hnd⟩
  unfold assoc at h
  cases hf : es.find? (fun e => e.1 = k) with
  | none => rw [hf] at h; cases h
  | some e =>
    rw [hf] at h
    have h1 : e.1 = k := by simpa using List.find?_some hf
    have h2 : e.2 = v := by simpa using h
    have := List.mem_of_find?_eq_some hf
    rw [← h1, ← h2]; exact this

lemma assoc_eq_none_iff {es : List (String × GoAny)} {k : String} :
    assoc es k = none ↔ k ∉ es.map Prod.fst := by
  simp only [assoc, Option.map_eq_none', List.find?_eq_none, List.mem_map, not_exists, not_and]
  constructor
  · intro h e he e1
    exact h e he (by simpa using e1)
  · intro h e he e1
    exact h e he (by simpa using e1)

lemma map_erase_kv {c c1 : LRUCache} {l : List Nat} {n : Nat} (h : Rep c l) (hn : n ∈ l)
    (hkv : ∀ p, p ≠ n → c1.kv p = c.kv p) :
    (l.erase n).map c1.kv = (l.map c.kv).filter (fun e => e.1 ≠ (c.heap n).key) := by
  have h1 : (l.erase n).map c1.kv = (l.erase n).map c.kv := by
    refine List.map_congr_left (fun p hp => hkv p ?_)
    rintro rfl
    exact List.Nodup.not_mem_erase h.links.nodup hp
  have h2 : l.erase n = l.filter (fun p => p ≠ n) := by
    rw [h.links.nodup.erase_eq_filter n]
    exact List.filter_congr (fun p _ => by by_cases e : p = n <;> simp [e])
  rw [h1, h2, List.filter_map]
  congr 1
  refine List.filter_congr (fun p hp => ?_)
  have : (c.heap p).key = (c.heap n).key ↔ p = n :=
    ⟨fun e => h.key_inj hp hn e, fun e => e ▸ rfl⟩
  simp [LRUCache.kv, this]

lemma Abs.get_hit_abs {c : LRUCache} {es : List (String × GoAny)} {k : String} {v : GoAny}
    (h : Abs c es) (hm : (k, v) ∈ es) :
    (c.Get k).2 = (v, true) ∧
      Abs (c.Get k).1 ((k, v) :: es.filter (fun e => e.1 ≠ k)) ∧
      (c.Get k).1.capacity = c.capacity ∧ (c.Get k).1.cache = c.cache := by
  obtain ⟨l, hr, rfl⟩ := h
  obtain ⟨n, hn, hkv⟩ := List.mem_map.1 hm
  have hkey : (c.heap n).key = k := congrArg Prod.fst hkv
  have hval : (c.heap n).value = v := congrArg Prod.snd hkv
  have hlk := hr.lookup_eq n hn
  rw [hkey] at hlk
  obtain ⟨e, hr1, hc, hkv1⟩ := hr.get_hit hlk
  rw [e]
  refine ⟨by rw [hval], ⟨_, hr1, ?_⟩, hc, (moveToHead_frame c n).2.1⟩
  rw [List.map_cons, hkv1 n, hkv, map_erase_kv hr hn (fun p _ => hkv1 p), hkey]

lemma Abs.get_miss_abs {c : LRUCache} {es : List (String × GoAny)} {k : String}
    (h : Abs c es) (hm : k ∉ es.map Prod.fst) : c.Get k = (c, GoAny.nil, false) :=
  Rep.get_miss ((h.lookup_none_iff k).2 hm)

lemma Abs.set_hit_abs {c : LRUCache} {es : List (String × GoAny)} {k : String}
    (h : Abs c es) (hm : k ∈ es.map Prod.fst) (v : GoAny) :
    Abs (c.Set k v) ((k, v) :: es.filter (fun e => e.1 ≠ k)) ∧
      (c.Set k v).capacity = c.capacity := by
  obtain ⟨l, hr, rfl⟩ := h
  rw [kv_fst_map] at hm
  obtain ⟨n, hn, hkey⟩ := List.mem_map.1 hm
  have hlk := hr.lookup_eq n hn
  rw [hkey] at hlk
  obtain ⟨hr1, hc, hkv, hkvp⟩ := hr.set_hit hlk v
  refine ⟨⟨_, hr1, ?_⟩, hc⟩
  rw [List.map_cons, hkv, map_erase_kv hr hn hkvp, hkey]

lemma Abs.set_new_abs {c : LRUCache} {es : List (String × GoAny)} {k : String}
    (h : Abs c es) (hm : k ∉ es.map Prod.fst) (v : GoAny) :
    Abs (c.Set k v) (if ((es.length + 1 : Nat) : Int) > c.capacity
        then ((k, v) :: es).dropLast else (k, v) :: es) ∧
      (c.Set k v).capacity = c.capacity := by
  have hlk := (h.lookup_none_iff k).2 hm
  obtain ⟨l, hr, rfl⟩ := h
  obtain ⟨hr1, hc, hkv, hkvp⟩ := hr.set_new hlk v
  have hmap : (c.alloc :: l).map (c.Set k v).kv = (k, v) :: l.map c.kv := by
    rw [List.map_cons, hkv]
    congr 1
    refine List.map_congr_left (fun p hp => hkvp p ?_)
    rintro rfl
    exact lt_irrefl _ (hr.fresh _ hp)
  refine ⟨⟨_, hr1, ?_⟩, hc⟩
  rw [List.length_map]
  split_ifs
  · rw [List.map_dropLast, hmap]
  · exact hmap

/-- One call acts on the represented entry list as `absStep` says. -/
lemma Abs.step_abs {c : LRUCache} {es : List (String × GoAny)} (h : Abs c es) (op : Op) :
    Abs (step c op) (absStep c.capacity es op) ∧ (step c op).capacity = c.capacity := by
  cases op with
  | get k =>
    cases ha : assoc es k with
    | none =>
      have e : cache.step c (Op.get k) = c := by
        simp [cache.step, h.get_miss_abs (assoc_eq_none_iff.1 ha)]
      rw [e]
      simp only [absStep, ha]
      exact ⟨h, trivial⟩
    | some v =>
      obtain ⟨-, h1, h2, -⟩ := h.get_hit_abs ((assoc_eq_some_iff h.nodup).1 ha)
      simp only [absStep, ha]
      exact ⟨h1, h2⟩
  | set k v =>
    by_cases hm : k ∈ es.map Prod.fst
    · simp only [absStep, hm, if_true]
      exact h.set_hit_abs hm v
    · simp only [absStep, hm, if_false]
      exact h.set_new_abs hm v

lemma abs_new (C : Int) : Abs (NewLRUCache C) [] := ⟨[], rep_new C, rfl⟩

lemma Abs.run_abs {c : LRUCache} {es : List (String × GoAny)} (h : Abs c es) (ops : List Op) :
    Abs (run c ops) (absRun c.capacity es ops) ∧ (run c ops).capacity = c.capacity := by
  induction ops generalizing c es with
  | nil => exact ⟨h, rfl⟩
  | cons op ops ih =>
    obtain ⟨h1, hc1⟩ := h.step_abs op
    obtain ⟨h2, hc2⟩ := ih h1
    rw [hc1] at h2
    exact ⟨h2, hc2.trans hc1⟩

lemma Reachable.abs {C : Int} {c : LRUCache} (h : Reachable C c) :
    ∃ es, Abs c es ∧ c.capacity = C ∧ (es.length : Int) ≤ max C 0 := by
  obtain ⟨l, hr, hc, hl⟩ := h.rep
  exact ⟨l.map c.kv, ⟨l, hr, rfl⟩, hc, by simpa using hl⟩

/-! ## Facts about entry lists -/

lemma assoc_cons_self (k : String) (v : GoAny) (es : List (String × GoAny)) :
    assoc ((k, v) :: es) k = some v := by
  simp [assoc]

lemma assoc_cons_ne {k j : String} (v : GoAny) (es : List (String × GoAny)) (h : j ≠ k) :
    assoc ((k, v) :: es) j = assoc es j := by
  have : ¬ k = j := fun e => h e.symm
  simp [assoc, List.find?_cons, this]

lemma assoc_filter_ne {k j : String} (es : List (String × GoAny)) (h : j ≠ k) :
    assoc (es.filter (fun e => e.1 ≠ k)) j = assoc es j := by
  induction es with
  | nil => rfl
  | cons e es ih =>
    by_cases hk : e.1 = k
    · have hj : ¬ e.1 = j := fun e1 => h (e1.symm.trans hk)
      have : assoc (e :: es) j = assoc es j := by simp [assoc, List.find?_cons, hj]
      rw [this, ← ih]
      simp [List.filter_cons, hk]
    · have hf : (e :: es).filter (fun e => e.1 ≠ k) = e :: es.filter (fun e => e.1 ≠ k) := by
        simp [List.filter_cons, hk]
      rw [hf]
      by_cases hj : e.1 = j
      · simp [assoc, List.find?_cons, hj]
      · have h1 : assoc (e :: es.filter (fun e => e.1 ≠ k)) j
            = assoc (es.filter (fun e => e.1 ≠ k)) j := by simp [assoc, List.find?_cons, hj]
        have h2 : assoc (e :: es) j = assoc es j := by simp [assoc, List.find?_cons, hj]
        rw [h1, h2, ih]

lemma assoc_append_singleton_ne {t j : String} (w : GoAny) (E : List (String × GoAny))
    (h : j ≠ t) : assoc (E ++ [(t, w)]) j = assoc E j := by
  have : ¬ t = j := fun e => h e.symm
  simp [assoc, List.find?_append, List.find?_cons, this]

lemma map_fst_filter (k : String) (es : List (String × GoAny)) :
    (es.filter (fun e => e.1 ≠ k)).map Prod.fst = (es.map Prod.fst).filter (fun j => j ≠ k) := by
  rw [List.filter_map]; rfl

lemma mem_filter_keys {k j : String} {ks : List String} (hk : k ∈ ks) :
    j ∈ k :: ks.filter (fun i => i ≠ k) ↔ j ∈ ks := by
  by_cases e : j = k
  · subst e; simp [hk]
  · simp [e]

lemma length_filter_keys {k : String} {ks : List String} (hnd : ks.Nodup) (hk : k ∈ ks) :
    (k :: ks.filter (fun i => i ≠ k)).length = ks.length := by
  have h2 : ks.erase k = ks.filter (fun i => i ≠ k) := by
    rw [hnd.erase_eq_filter k]
    exact List.filter_congr (fun p _ => by by_cases e : p = k <;> simp [e])
  rw [← h2]
  exact (List.perm_cons_erase hk).length_eq.symm

/-! ## The claims -/

/-- C2: for every capacity `C ≥ 1` and every finite sequence of `Get` and `Set`
calls applied to `NewLRUCache(C)`, the number of entries of the key map is at
most `C` after each call of the sequence (after the first `n` calls, for every `n`). -/
theorem size_bound (C : Int) (hC : 1 ≤ C) (ops : List Op) (n : Nat) :
    ((run (NewLRUCache C) (ops.take n)).len : Int) ≤ C := by
  obtain ⟨l, hr, -, hl⟩ := Reachable.rep ⟨ops.take n, rfl⟩
  rw [hr.len_eq]
  rwa [max_eq_left (by omega)] at hl

theorem size_bound_witness :
    (1 : Int) ≤ 2 ∧
    ((run (NewLRUCache 2) ([Op.set "key1" (GoAny.int 1), Op.set "key2" (GoAny.int 2),
      Op.set "key3" (GoAny.int 3), Op.set "key4" (GoAny.int 4),
      Op.set "key5" (GoAny.int 5)].take 5)).len : Int) ≤ 2 :=
  ⟨by decide, size_bound 2 (by decide) _ 5⟩

/-- C3: in every state reachable from `NewLRUCache(C)` with `C ≥ 1`, for every
key (the empty string included) and every value (`nil` included), `Set(k, v)`
immediately followed by `Get(k)` returns `(v, true)`. -/
theorem set_then_get (C : Int) (hC : 1 ≤ C) (c : LRUCache) (hr : Reachable C c)
    (k : String) (v : GoAny) : ((c.Set k v).Get k).2 = (v, true) := by
  obtain ⟨l, h, hcap, hl⟩ := hr.rep
  rw [max_eq_left (by omega)] at hl
  have key : ∀ (l1 : List Nat) (n : Nat), Rep (c.Set k v) l1 → n ∈ l1 →
      (c.Set k v).kv n = (k, v) → ((c.Set k v).Get k).2 = (v, true) := by
    intro l1 n h1 hn hkv
    have hkey : ((c.Set k v).heap n).key = k := congrArg Prod.fst hkv
    have hval : ((c.Set k v).heap n).value = v := congrArg Prod.snd hkv
    have hlk := h1.lookup_eq n hn
    rw [hkey] at hlk
    rw [(h1.get_hit hlk).1, hval]
  cases hk : c.cache.lookup k with
  | some n =>
    obtain ⟨h1, -, hkv, -⟩ := h.set_hit hk v
    exact key _ n h1 (List.mem_cons_self _ _) hkv
  | none =>
    obtain ⟨h1, -, hkv, -⟩ := h.set_new hk v
    refine key _ c.alloc h1 ?_ hkv
    split_ifs with hgt
    · cases l with
      | nil => rw [hcap] at hgt; simp at hgt; omega
      | cons x xs => simp [List.dropLast]
    · exact List.mem_cons_self _ _

theorem set_then_get_witness :
    (1 : Int) ≤ 5 ∧ Reachable 5 (run (NewLRUCache 5) [Op.set "a" (GoAny.int 1)]) ∧
    (((run (NewLRUCache 5) [Op.set "a" (GoAny.int 1)]).Set "" GoAny.nil).Get "").2
      = (GoAny.nil, true) :=
  ⟨by decide, ⟨_, rfl⟩, set_then_get 5 (by decide) _ ⟨_, rfl⟩ "" GoAny.nil⟩

/-- C5: for every cache state and every key that has no entry in the key map,
`Get(k)` returns `(nil, false)` and the state after the call is the state before
it: key map, stored values, head, tail and all links are the same. -/
theorem get_miss_unchanged (c : LRUCache) (k : String) (hk : c.cache.lookup k = none) :
    c.Get k = (c, GoAny.nil, false) :=
  Rep.get_miss hk

theorem get_miss_unchanged_witness :
    (NewLRUCache 5).cache.lookup "nonexistent" = none ∧
    (NewLRUCache 5).Get "nonexistent" = (NewLRUCache 5, GoAny.nil, false) :=
  ⟨rfl, get_miss_unchanged _ _ rfl⟩

/-- C9: for every capacity `C ≤ 0`, `NewLRUCache(C)` is constructed with capacity
field `C`, and after every sequence of `Get` and `Set` calls the key map is
empty, head and tail are nil, every `Get` returns `(nil, false)` and leaves the
state as it is, also a `Get(k)` issued immediately after `Set(k, v)`. -/
theorem nonpositive_capacity_noop (C : Int) (hC : C ≤ 0) (ops : List Op) :
    (NewLRUCache C).capacity = C ∧
    (run (NewLRUCache C) ops).cache.keys = [] ∧
    (run (NewLRUCache C) ops).head = none ∧
    (run (NewLRUCache C) ops).tail = none ∧
    (∀ k, (run (NewLRUCache C) ops).Get k = (run (NewLRUCache C) ops, GoAny.nil, false)) ∧
    (∀ k v, (((run (NewLRUCache C) ops).Set k v).Get k).2 = (GoAny.nil, false)) := by
  have hempty : ∀ c, Reachable C c → c.cache.keys = [] ∧ c.head = none ∧ c.tail = none ∧
      ∀ k, c.cache.lookup k = none := by
    intro c hr
    obtain ⟨l, h, -, hl⟩ := hr.rep
    rw [max_eq_right hC] at hl
    have hl0 : l = [] := List.length_eq_zero.1 (by omega)
    subst hl0
    have hkeys : c.cache.keys = [] := List.length_eq_zero.1 (by simpa using h.keys_perm.length_eq)
    refine ⟨hkeys, h.head_none_iff.1.2 rfl, h.head_none_iff.2.2 rfl, fun k => ?_⟩
    rw [AList.lookup_eq_none, AList.mem_keys, hkeys]
    exact List.not_mem_nil k
  obtain ⟨h1, h2, h3, h4⟩ := hempty _ ⟨ops, rfl⟩
  refine ⟨rfl, h1, h2, h3, fun k => Rep.get_miss (h4 k), fun k v => ?_⟩
  have hr : Reachable C ((run (NewLRUCache C) ops).Set k v) := Reachable.set ⟨ops, rfl⟩ k v
  rw [Rep.get_miss ((hempty _ hr).2.2.2 k)]

theorem nonpositive_capacity_noop_witness :
    (-1 : Int) ≤ 0 ∧
    (NewLRUCache (-1)).capacity = -1 ∧
    (run (NewLRUCache (-1)) [Op.set "a" (GoAny.int 1)]).cache.keys = [] ∧
    (run (NewLRUCache (-1)) [Op.set "a" (GoAny.int 1)]).head = none ∧
    (run (NewLRUCache (-1)) [Op.set "a" (GoAny.int 1)]).tail = none ∧
    (∀ k, (run (NewLRUCache (-1)) [Op.set "a" (GoAny.int 1)]).Get k =
      (run (NewLRUCache (-1)) [Op.set "a" (GoAny.int 1)], GoAny.nil, false)) ∧
    (∀ k v, (((run (NewLRUCache (-1)) [Op.set "a" (GoAny.int 1)]).Set k v).Get k).2 =
      (GoAny.nil, false)) :=
  ⟨by decide, nonpositive_capacity_noop (-1) (by decide) _⟩

/-- C10: after every call of any finite sequence of `Get` and `Set` calls on
`NewLRUCache(C)`, for any integer `C`, the recency list is a well-formed
doubly-linked list: the walk along `next` from head terminates (within
`len(c.cache)` steps) with a list `l` of addresses without repetition whose
first element is head and whose last element is tail; the walk along `prev`
from tail terminates with exactly the reverse of `l`; `head.prev` and
`tail.next` are nil; head is nil exactly when tail is nil, exactly when the key
map is empty. -/
theorem list_well_formed (C : Int) (c : LRUCache) (hr : Reachable C c) :
    ∃ l : List Nat,
      (∀ fuel, c.len ≤ fuel → LRUCache.walkNext c.heap fuel c.head = some l) ∧
      l.Nodup ∧ l.head? = c.head ∧ l.getLast? = c.tail ∧ l.length = c.len ∧
      (∀ fuel, c.len ≤ fuel → LRUCache.walkPrev c.heap fuel c.tail = some l.reverse) ∧
      (∀ p, c.head = some p → (c.heap p).prev = none) ∧
      (∀ p, c.tail = some p → (c.heap p).next = none) ∧
      (c.head = none ↔ c.tail = none) ∧ (c.head = none ↔ c.len = 0) := by
  obtain ⟨l, h, -, -⟩ := hr.rep
  refine ⟨l, h.forward_eq, h.links.nodup, h.links.head_eq.symm, h.links.tail_eq.symm,
    h.len_eq.symm, h.backward_eq, fun p hp => h.links.head_prev hp,
    fun p hp => h.links.tail_next hp, ?_, ?_⟩
  · rw [h.head_none_iff.1, h.head_none_iff.2]
  · rw [h.head_none_iff.1, h.len_eq, List.length_eq_zero]

/-- C4: in every reachable state, for every key `k` the key map sends to a node
with value `v`, `Get(k)` returns `(v, true)`; afterwards the head-to-tail order
is `k` followed by the previous order with `k` removed (so when `k` was the tail
and `j` stood right before it, `j` is the new tail), and the key map has the
same keys with the same values. -/
theorem get_hit_moves_to_head (C : Int) (c : LRUCache) (hr : Reachable C c) (k : String)
    (v : GoAny) (hk : c.peek k = some v) :
    (c.Get k).2 = (v, true) ∧
    ∃ ks, c.order = some ks ∧
      (c.Get k).1.order = some (k :: ks.filter (fun j => j ≠ k)) ∧
      (∀ pre j, ks = pre ++ [j, k] → (c.Get k).1.tailKey = some j) ∧
      (∀ j, j ∈ (c.Get k).1.cache ↔ j ∈ c.cache) ∧
      (∀ j, (c.Get k).1.peek j = c.peek j) := by
  obtain ⟨es, ha, -, -⟩ := hr.abs
  rw [ha.peek_eq, assoc_eq_some_iff ha.nodup] at hk
  obtain ⟨h1, h2, -, h4⟩ := ha.get_hit_abs hk
  have hord : (c.Get k).1.order = some (k :: (es.map Prod.fst).filter (fun j => j ≠ k)) := by
    rw [h2.order_eq_abs, List.map_cons, map_fst_filter]
  refine ⟨h1, es.map Prod.fst, ha.order_eq_abs, hord, ?_, fun j => by rw [h4], fun j => ?_⟩
  · intro pre j hks
    have hnd := ha.nodup
    rw [hks] at hnd
    have hjk : j ≠ k := by
      intro e; subst e
      have := (List.nodup_append.1 hnd).2.1
      simp at this
    have hpre : ∀ a ∈ pre, a ≠ k := by
      intro a hm e; subst e
      exact (List.nodup_append.1 hnd).2.2 hm (by simp)
    rw [h2.tailKey_eq, List.map_cons, map_fst_filter, hks, List.filter_append,
      List.filter_eq_self.2 (fun a hm => by simpa using hpre a hm)]
    simp only [List.filter_cons, hjk, ne_eq, not_false_eq_true, decide_True, not_true_eq_false,
      decide_False, if_true, if_false, List.filter_nil, Bool.false_eq_true]
    rw [← List.cons_append, List.getLast?_append]
    simp
  · rw [h2.peek_eq, ha.peek_eq]
    by_cases e : j = k
    · subst e
      rw [assoc_cons_self, assoc_eq_some_of_mem ha.nodup hk]
    · rw [assoc_cons_ne _ _ e, assoc_filter_ne _ e]

theorem get_hit_moves_to_head_witness :
    Reachable 5 (run (NewLRUCache 5)
      [Op.set "a" (GoAny.int 1), Op.set "b" (GoAny.int 2), Op.set "c" (GoAny.int 3)]) ∧
    (run (NewLRUCache 5)
      [Op.set "a" (GoAny.int 1), Op.set "b" (GoAny.int 2), Op.set "c" (GoAny.int 3)]).peek "a"
      = some (GoAny.int 1) ∧
    ((run (NewLRUCache 5)
      [Op.set "a" (GoAny.int 1), Op.set "b" (GoAny.int 2), Op.set "c" (GoAny.int 3)]).Get "a").2
      = (GoAny.int 1, true) :=
  ⟨⟨_, rfl⟩, by decide, (get_hit_moves_to_head 5 _ ⟨_, rfl⟩ "a" (GoAny.int 1) (by decide)).1⟩

lemma set_hit_cache {c : LRUCache} {k : String} {n : Nat} (hk : c.cache.lookup k = some n)
    (v : GoAny) : (c.Set k v).cache = c.cache := by
  simp only [LRUCache.Set, hk]
  exact (moveToHead_frame _ n).2.1

/-- C6: in every reachable state, for every key `k` that already has an entry
and every value, `Set(k, v)` evicts nothing: the entry count and the set of
keys are unchanged, `k` now maps to `v`, every other key keeps its value, and
the head-to-tail order is `k` followed by the previous order with `k` removed. -/
theorem set_existing_updates (C : Int) (c : LRUCache) (hr : Reachable C c) (k : String)
    (v : GoAny) (hk : k ∈ c.cache) :
    (c.Set k v).len = c.len ∧ (∀ j, j ∈ (c.Set k v).cache ↔ j ∈ c.cache) ∧
    (c.Set k v).peek k = some v ∧ (∀ j, j ≠ k → (c.Set k v).peek j = c.peek j) ∧
    ∃ ks, c.order = some ks ∧ (c.Set k v).order = some (k :: ks.filter (fun j => j ≠ k)) := by
  obtain ⟨es, ha, -, -⟩ := hr.abs
  obtain ⟨n, hn⟩ : ∃ n, c.cache.lookup k = some n :=
    Option.isSome_iff_exists.1 (AList.lookup_isSome.2 hk)
  have hcache := set_hit_cache hn v
  obtain ⟨h1, -⟩ := ha.set_hit_abs ((ha.mem_iff k).1 hk) v
  refine ⟨by rw [LRUCache.len, hcache, LRUCache.len], fun j => by rw [hcache], ?_,
    fun j hj => ?_, es.map Prod.fst, ha.order_eq_abs, ?_⟩
  · rw [h1.peek_eq, assoc_cons_self]
  · rw [h1.peek_eq, ha.peek_eq, assoc_cons_ne _ _ hj, assoc_filter_ne _ hj]
  · rw [h1.order_eq_abs, List.map_cons, map_fst_filter]

theorem set_existing_updates_witness :
    Reachable 5 (run (NewLRUCache 5) [Op.set "a" (GoAny.int 1), Op.set "b" (GoAny.int 2)]) ∧
    "a" ∈ (run (NewLRUCache 5) [Op.set "a" (GoAny.int 1), Op.set "b" (GoAny.int 2)]).cache ∧
    ((run (NewLRUCache 5) [Op.set "a" (GoAny.int 1), Op.set "b" (GoAny.int 2)]).Set "a"
      (GoAny.int 7)).peek "a" = some (GoAny.int 7) :=
  ⟨⟨_, rfl⟩, by decide,
    (set_existing_updates 5 _ ⟨_, rfl⟩ "a" (GoAny.int 7) (by decide)).2.2.1⟩

/-- C7: in every state reachable from `NewLRUCache(C)` with `C ≥ 1`, for every
key `k` without an entry and every value `v`, after `Set(k, v)` the key `k` maps
to `v` and: if the entry count was below `C`, the new order is `k` followed by
the old order, nothing is removed and the count grows by one; if the entry
count was `C`, the new order is `k` followed by the old order without its last
element, the old tail key `t` is gone from the key map and from the order,
every other old entry keeps its value, and the count stays `C`. -/
theorem set_new_inserts (C : Int) (hC : 1 ≤ C) (c : LRUCache) (hr : Reachable C c)
    (k : String) (v : GoAny) (hk : c.cache.lookup k = none) :
    ∃ ks, c.order = some ks ∧ (c.Set k v).peek k = some v ∧
      ((c.len : Int) < C →
        (c.Set k v).order = some (k :: ks) ∧ (c.Set k v).len = c.len + 1 ∧
        ∀ j, j ≠ k → (c.Set k v).peek j = c.peek j) ∧
      ((c.len : Int) = C →
        ∃ t, c.tailKey = some t ∧ ks.getLast? = some t ∧
          (c.Set k v).order = some (k :: ks.dropLast) ∧
          (c.Set k v).peek t = none ∧ t ∉ k :: ks.dropLast ∧
          (∀ j, j ≠ k → j ≠ t → (c.Set k v).peek j = c.peek j) ∧
          (c.Set k v).len = c.len) := by
  obtain ⟨es, ha, hcap, -⟩ := hr.abs
  have hm : k ∉ es.map Prod.fst := (ha.lookup_none_iff k).1 hk
  obtain ⟨h1, -⟩ := ha.set_new_abs hm v
  rw [hcap] at h1
  have hlen := ha.len_eq_abs
  refine ⟨es.map Prod.fst, ha.order_eq_abs, ?_, ?_, ?_⟩
  · rw [h1.peek_eq]
    split_ifs with hgt
    · cases es with
      | nil => simp at hgt; omega
      | cons e es => simp [List.dropLast, assoc_cons_self]
    · exact assoc_cons_self k v es
  · intro hlt
    rw [hlen] at hlt
    rw [if_neg (by push_cast; omega)] at h1
    refine ⟨by rw [h1.order_eq_abs]; rfl, by rw [h1.len_eq_abs, hlen]; rfl, fun j hj => ?_⟩
    rw [h1.peek_eq, ha.peek_eq, assoc_cons_ne _ _ hj]
  · intro heq
    rw [hlen] at heq
    rw [if_pos (by push_cast; omega)] at h1
    rcases eq_nil_or_snoc es with rfl | ⟨E, ⟨t, w⟩, rfl⟩
    · simp at heq; omega
    · have hd : ((k, v) :: (E ++ [(t, w)])).dropLast = (k, v) :: E := by
        rw [← List.cons_append, List.dropLast_concat]
      rw [hd] at h1
      have hks : (E ++ [(t, w)]).map Prod.fst = E.map Prod.fst ++ [t] := by simp
      have hnd := ha.nodup
      rw [hks] at hnd hm ⊢
      have htE : t ∉ E.map Prod.fst := fun h =>
        (List.nodup_append.1 hnd).2.2 h (List.mem_singleton_self t)
      have htk : t ≠ k := fun e => hm (by simp [e])
      refine ⟨t, ?_, by simp, ?_, ?_, ?_, fun j hj hjt => ?_, ?_⟩
      · rw [ha.tailKey_eq, hks]; simp
      · rw [h1.order_eq_abs, List.dropLast_concat]; rfl
      · rw [h1.peek_eq, assoc_cons_ne _ _ htk, assoc_eq_none_iff]; exact htE
      · rw [List.dropLast_concat]
        intro h
        rcases List.mem_cons.1 h with e | e
        · exact htk e
        · exact htE e
      · rw [h1.peek_eq, ha.peek_eq, assoc_cons_ne _ _ hj, assoc_append_singleton_ne _ _ hjt]
      · rw [h1.len_eq_abs, hlen]; simp

theorem set_new_inserts_witness :
    (1 : Int) ≤ 2 ∧
    Reachable 2 (run (NewLRUCache 2) [Op.set "key1" (GoAny.str "value1"),
      Op.set "key2" (GoAny.str "value2")]) ∧
    (run (NewLRUCache 2) [Op.set "key1" (GoAny.str "value1"),
      Op.set "key2" (GoAny.str "value2")]).cache.lookup "key3" = none ∧
    ((run (NewLRUCache 2) [Op.set "key1" (GoAny.str "value1"),
      Op.set "key2" (GoAny.str "value2")]).Set "key3" (GoAny.str "value3")).order
      = some ["key3", "key2"] ∧
    ∃ ks, (run (NewLRUCache 2) [Op.set "key1" (GoAny.str "value1"),
        Op.set "key2" (GoAny.str "value2")]).order = some ks ∧
      ((run (NewLRUCache 2) [Op.set "key1" (GoAny.str "value1"),
        Op.set "key2" (GoAny.str "value2")]).Set "key3" (GoAny.str "value3")).peek "key3"
        = some (GoAny.str "value3") :=
  ⟨by decide, ⟨_, rfl⟩, by decide, by decide,
    (set_new_inserts 2 (by decide) _ ⟨_, rfl⟩ "key3" (GoAny.str "value3") (by decide)).imp
      (fun _ h => ⟨h.1, h.2.1⟩)⟩

lemma absRun_append (C : Int) (es : List (String × GoAny)) (a b : List Op) :
    absRun C es (a ++ b) = absRun C (absRun C es a) b := by
  simp [absRun, List.foldl_append]

lemma absRun_sets (C : Int) (kvs es : List (String × GoAny))
    (hnd : (kvs.map Prod.fst).Nodup) (hdisj : ∀ k ∈ kvs.map Prod.fst, k ∉ es.map Prod.fst)
    (hlen : ((es.length + kvs.length : Nat) : Int) ≤ C) :
    absRun C es (sets kvs) = kvs.reverse ++ es := by
  induction kvs generalizing es with
  | nil => rfl
  | cons e kvs ih =>
    have hnd1 : e.1 ∉ kvs.map Prod.fst ∧ (kvs.map Prod.fst).Nodup := List.nodup_cons.1 hnd
    have he : e.1 ∉ es.map Prod.fst := hdisj e.1 (by simp)
    have hstep : absStep C es (Op.set e.1 e.2) = e :: es := by
      have : ¬ ((es.length + 1 : Nat) : Int) > C := by
        simp only [List.length_cons] at hlen
        push_cast at hlen ⊢
        omega
      simp only [absStep, he, if_false, this]
    have hrun : absRun C es (sets (e :: kvs)) = absRun C (e :: es) (sets kvs) := by
      show List.foldl (absStep C) (absStep C es (Op.set e.1 e.2)) (sets kvs) = _
      rw [hstep]; rfl
    rw [hrun, ih (e :: es) hnd1.2 ?_ ?_]
    · simp
    · intro k hk hm
      rcases List.mem_cons.1 hm with h | h
      · exact hnd1.1 (h ▸ hk)
      · exact hdisj k (List.mem_cons_of_mem _ hk) h
    · simp only [List.length_cons] at hlen ⊢
      have : es.length + 1 + kvs.length = es.length + (kvs.length + 1) := by omega
      rw [this]; exact hlen

/-- C8: for every capacity `C ≥ 1` and every list of `C + 1` pairs with pairwise
distinct keys, `Set` in order into `NewLRUCache(C)` with no `Get` in between,
exactly the first-inserted key is evicted: afterwards `Get` of the first key
returns `(nil, false)`, `Get` of each of the other `C` keys returns its value
and `true`, and the entry count is `C`. -/
theorem evicts_first_inserted (C : Int) (hC : 1 ≤ C) (kvs : List (String × GoAny))
    (hlen : (kvs.length : Int) = C + 1) (hnd : (kvs.map Prod.fst).Nodup) :
    (∀ e, kvs.head? = some e →
      ((run (NewLRUCache C) (sets kvs)).Get e.1).2 = (GoAny.nil, false)) ∧
    (∀ e ∈ kvs.tail, ((run (NewLRUCache C) (sets kvs)).Get e.1).2 = (e.2, true)) ∧
    ((run (NewLRUCache C) (sets kvs)).len : Int) = C := by
  obtain ⟨ha, -⟩ := (abs_new C).run_abs (sets kvs)
  have hcap : (NewLRUCache C).capacity = C := rfl
  rw [hcap] at ha
  cases kvs with
  | nil => simp at hlen; omega
  | cons first tl =>
    rcases eq_nil_or_snoc tl with rfl | ⟨rest, last, rfl⟩
    · simp at hlen; omega
    · have hsplit : sets (first :: (rest ++ [last])) =
          sets (first :: rest) ++ [Op.set last.1 last.2] := by simp [sets]
      have hnd1 : ((first :: rest).map Prod.fst).Nodup ∧ last.1 ∉ (first :: rest).map Prod.fst := by
        have h1 : ((first :: rest) ++ [last]).map Prod.fst
            = (first :: rest).map Prod.fst ++ [last.1] := by simp
        have h2 : ((first :: rest).map Prod.fst ++ [last.1]).Nodup := by
          rw [← h1]; exact hnd
        exact ⟨(List.nodup_append.1 h2).1,
          fun h => (List.nodup_append.1 h2).2.2 h (List.mem_singleton_self _)⟩
      have hlen1 : ((first :: rest).length : Int) = C := by
        simp only [List.length_cons, List.length_append, List.length_nil] at hlen ⊢
        push_cast at hlen ⊢
        omega
      have h1 : absRun C [] (sets (first :: rest)) = (first :: rest).reverse := by
        rw [absRun_sets C _ [] hnd1.1 (fun k _ h => by cases h) (by simpa using hlen1.le)]
        simp
      have hfinal : absRun C [] (sets (first :: (rest ++ [last]))) = (rest ++ [last]).reverse := by
        rw [hsplit, absRun_append, h1]
        show absStep C (first :: rest).reverse (Op.set last.1 last.2) = _
        have hk : last.1 ∉ ((first :: rest).reverse).map Prod.fst := by
          rw [List.map_reverse, List.mem_reverse]; exact hnd1.2
        have hgt : (((first :: rest).reverse.length + 1 : Nat) : Int) > C := by
          rw [List.length_reverse]; push_cast; omega
        simp only [absStep, hk, if_false, hgt, if_true]
        rw [List.reverse_cons, ← List.cons_append, List.dropLast_concat]
        simp
      rw [hfinal] at ha
      have hfirst : first.1 ∉ (rest ++ [last]).map Prod.fst := (List.nodup_cons.1 hnd).1
      refine ⟨fun e he => ?_, fun e he => ?_, ?_⟩
      · simp only [List.head?_cons, Option.some.injEq] at he
        subst he
        rw [ha.get_miss_abs (by rw [List.map_reverse, List.mem_reverse]; exact hfirst)]
      · have hmem : (e.1, e.2) ∈ (rest ++ [last]).reverse := by
          rw [List.mem_reverse]; exact he
        exact (ha.get_hit_abs hmem).1
      · rw [ha.len_eq_abs, List.length_reverse]
        simp only [List.length_cons, List.length_append, List.length_nil] at hlen ⊢
        push_cast at hlen ⊢
        omega

theorem evicts_first_inserted_witness :
    (1 : Int) ≤ 2 ∧
    (([("a", GoAny.int 1), ("b", GoAny.int 2), ("c", GoAny.int 3)] :
      List (String × GoAny)).length : Int) = 2 + 1 ∧
    (([("a", GoAny.int 1), ("b", GoAny.int 2), ("c", GoAny.int 3)] :
      List (String × GoAny)).map Prod.fst).Nodup ∧
    ((run (NewLRUCache 2)
      (sets [("a", GoAny.int 1), ("b", GoAny.int 2), ("c", GoAny.int 3)])).Get "a").2
      = (GoAny.nil, false) ∧
    ((run (NewLRUCache 2)
      (sets [("a", GoAny.int 1), ("b", GoAny.int 2), ("c", GoAny.int 3)])).Get "b").2
      = (GoAny.int 2, true) ∧
    ((run (NewLRUCache 2)
      (sets [("a", GoAny.int 1), ("b", GoAny.int 2), ("c", GoAny.int 3)])).Get "c").2
      = (GoAny.int 3, true) :=
  have h := evicts_first_inserted 2 (by decide)
    [("a", GoAny.int 1), ("b", GoAny.int 2), ("c", GoAny.int 3)] (by decide) (by decide)
  ⟨by decide, by decide, by decide, h.1 _ rfl, h.2.1 ("b", GoAny.int 2) (by decide),
    h.2.1 ("c", GoAny.int 3) (by decide)⟩

/-! ## Touch history -/

lemma lastTouch_cons_self (k : String) (log : List String) :
    lastTouch (k :: log) k = log.length + 1 := by
  simp [lastTouch, List.indexOf_cons_self]

lemma lastTouch_cons_ne {k j : String} (log : List String) (h : j ≠ k) :
    lastTouch (k :: log) j = lastTouch log j := by
  simp [lastTouch, List.indexOf_cons_ne _ (Ne.symm h)]

lemma lastTouch_le (log : List String) (j : String) : lastTouch log j ≤ log.length :=
  Nat.sub_le _ _

lemma length_lt_dedup {ks log : List String} {k : String} (hnd : ks.Nodup)
    (hsub : ∀ j ∈ ks, j ∈ log) (hk : k ∈ log) (hk1 : k ∉ ks) :
    ks.length + 1 ≤ log.dedup.length := by
  have h1 : (k :: ks).Nodup := List.nodup_cons.2 ⟨hk1, hnd⟩
  have h2 : k :: ks ⊆ log.dedup := by
    intro j hj
    rw [List.mem_dedup]
    rcases List.mem_cons.1 hj with e | e
    · exact e ▸ hk
    · exact hsub j e
  simpa using (List.subperm_of_subset h1 h2).length_le

lemma Recency.nil (C : Int) (hC : 1 ≤ C) : Recency C [] [] := by
  refine ⟨List.nodup_nil, fun k h => (by cases h), List.Pairwise.nil,
    fun k h => (by cases h), ?_, rfl⟩
  simp only [List.length_nil, List.dedup_nil, Nat.cast_zero]
  exact (min_eq_right (by omega)).symm

lemma Recency.touch_mem {C : Int} {ks log : List String} {k : String}
    (h : Recency C ks log) (hk : k ∈ ks) :
    Recency C (k :: ks.filter (fun j => j ≠ k)) (k :: log) := by
  have hfm : ∀ j, j ∈ ks.filter (fun j => j ≠ k) ↔ j ∈ ks ∧ j ≠ k := by
    intro j; simp [List.mem_filter]
  have hlt : ∀ j, j ≠ k → lastTouch (k :: log) j < lastTouch (k :: log) k := by
    intro j hj
    rw [lastTouch_cons_self, lastTouch_cons_ne _ hj]
    exact Nat.lt_succ_of_le (lastTouch_le log j)
  refine ⟨?_, ?_, ?_, ?_, ?_, rfl⟩
  · refine List.nodup_cons.2 ⟨fun hm => ((hfm k).1 hm).2 rfl, h.nodup.filter _⟩
  · intro j hj
    rcases List.mem_cons.1 hj with e | e
    · exact e ▸ List.mem_cons_self _ _
    · exact List.mem_cons_of_mem _ (h.touched j ((hfm j).1 e).1)
  · refine List.pairwise_cons.2 ⟨fun j hj => hlt j ((hfm j).1 hj).2, ?_⟩
    refine (h.sorted.filter _).imp_of_mem (fun {a b} ha hb hab => ?_)
    rw [lastTouch_cons_ne _ ((hfm a).1 ha).2, lastTouch_cons_ne _ ((hfm b).1 hb).2]
    exact hab
  · intro j hj hjn i hi
    have hjk : j ≠ k := fun e => hjn (e ▸ List.mem_cons_self _ _)
    have hjks : j ∉ ks := fun hm => hjn (List.mem_cons_of_mem _ ((hfm j).2 ⟨hm, hjk⟩))
    have hjlog : j ∈ log := by
      rcases List.mem_cons.1 hj with e | e
      · exact absurd e hjk
      · exact e
    rcases List.mem_cons.1 hi with e | e
    · rw [e]; exact hlt j hjk
    · rw [lastTouch_cons_ne _ hjk, lastTouch_cons_ne _ ((hfm i).1 e).2]
      exact h.outside j hjlog hjks i ((hfm i).1 e).1
  · rw [length_filter_keys h.nodup hk, List.dedup_cons_of_mem (h.touched k hk)]
    exact h.length_eq

lemma Recency.touch_new {C : Int} (hC : 1 ≤ C) {ks log : List String} {k : String}
    (h : Recency C ks log) (hk : k ∉ ks) :
    Recency C (if ((ks.length + 1 : Nat) : Int) > C then (k :: ks).dropLast else k :: ks)
      (k :: log) := by
  have hne : ∀ j ∈ ks, j ≠ k := fun j hj e => hk (e ▸ hj)
  have hlt : ∀ j, j ≠ k → lastTouch (k :: log) j < lastTouch (k :: log) k := by
    intro j hj
    rw [lastTouch_cons_self, lastTouch_cons_ne _ hj]
    exact Nat.lt_succ_of_le (lastTouch_le log j)
  have hnd : (k :: ks).Nodup := List.nodup_cons.2 ⟨hk, h.nodup⟩
  have hsorted : (k :: ks).Pairwise (fun a b => lastTouch (k :: log) b < lastTouch (k :: log) a) := by
    refine List.pairwise_cons.2 ⟨fun j hj => hlt j (hne j hj), ?_⟩
    refine h.sorted.imp_of_mem (fun {a b} ha hb hab => ?_)
    rw [lastTouch_cons_ne _ (hne a ha), lastTouch_cons_ne _ (hne b hb)]
    exact hab
  have htouched : ∀ j ∈ k :: ks, j ∈ k :: log := by
    intro j hj
    rcases List.mem_cons.1 hj with e | e
    · exact e ▸ List.mem_cons_self _ _
    · exact List.mem_cons_of_mem _ (h.touched j e)
  have hlen := h.length_eq
  have hdd : (log.dedup.length : Int) ≤ ((k :: log).dedup.length : Int) := by
    by_cases hm : k ∈ log
    · rw [List.dedup_cons_of_mem hm]
    · rw [List.dedup_cons_of_not_mem hm]; simp
  split_ifs with hgt
  · -- the cache is full: the last key is dropped
    have hfull : (ks.length : Int) = C := by
      push_cast at hgt
      have := min_le_left C (log.dedup.length : Int)
      omega
    rcases eq_nil_or_snoc ks with rfl | ⟨K, t, rfl⟩
    · simp at hfull; omega
    · have hd : (k :: (K ++ [t])).dropLast = k :: K := by
        rw [← List.cons_append, List.dropLast_concat]
      rw [hd]
      have hsub : (k :: K).Sublist (k :: (K ++ [t])) :=
        (List.sublist_append_left K [t]).cons₂ k
      have htK : t ∉ K := fun hm =>
        (List.nodup_append.1 h.nodup).2.2 hm (List.mem_singleton_self t)
      refine ⟨hnd.sublist hsub, fun j hj => htouched j (hsub.subset hj),
        hsorted.sublist hsub, ?_, ?_, rfl⟩
      · intro j hj hjn i hi
        have hjk : j ≠ k := fun e => hjn (e ▸ List.mem_cons_self _ _)
        have hjK : j ∉ K := fun hm => hjn (List.mem_cons_of_mem _ hm)
        have hjlog : j ∈ log := by
          rcases List.mem_cons.1 hj with e | e
          · exact absurd e hjk
          · exact e
        rcases List.mem_cons.1 hi with e | e
        · rw [e]; exact hlt j hjk
        · have hik : i ≠ k := hne i (by simp [e])
          rw [lastTouch_cons_ne _ hjk, lastTouch_cons_ne _ hik]
          by_cases hjt : j = t
          · subst hjt
            exact (List.pairwise_append.1 h.sorted).2.2 i e j (List.mem_singleton_self j)
          · refine h.outside j hjlog (fun hm => ?_) i (by simp [e])
            rcases List.mem_append.1 hm with h1 | h1
            · exact hjK h1
            · exact hjt (List.mem_singleton.1 h1)
      · have h1 : ((k :: K).length : Int) = C := by
          simp only [List.length_cons, List.length_append, List.length_nil] at hfull ⊢
          exact hfull
        rw [h1]
        have : C ≤ (log.dedup.length : Int) := by
          rw [hfull] at hlen
          exact (min_eq_left_iff.1 hlen.symm)
        exact (min_eq_left (le_trans this hdd)).symm
  · -- there is room: nothing is dropped
    refine ⟨hnd, htouched, hsorted, ?_, ?_, rfl⟩
    · intro j hj hjn i hi
      have hjk : j ≠ k := fun e => hjn (e ▸ List.mem_cons_self _ _)
      have hjks : j ∉ ks := fun hm => hjn (List.mem_cons_of_mem _ hm)
      have hjlog : j ∈ log := by
        rcases List.mem_cons.1 hj with e | e
        · exact absurd e hjk
        · exact e
      rcases List.mem_cons.1 hi with e | e
      · rw [e]; exact hlt j hjk
      · rw [lastTouch_cons_ne _ hjk, lastTouch_cons_ne _ (hne i e)]
        exact h.outside j hjlog hjks i e
    · push_cast at hgt
      have hroom : (ks.length : Int) < C := by omega
      have heq : (ks.length : Int) = (log.dedup.length : Int) := by
        rcases min_choice C (log.dedup.length : Int) with e | e
        · rw [e] at hlen; omega
        · rw [e] at hlen; exact hlen
      have hknew : k ∉ log := by
        intro hm
        have := length_lt_dedup h.nodup h.touched hm hk
        omega
      rw [List.dedup_cons_of_not_mem hknew]
      simp only [List.length_cons]
      push_cast
      rw [← heq]
      exact (min_eq_right (by omega)).symm

lemma touchLog_append (c : LRUCache) (acc : List String) (ops : List Op) (op : Op) :
    touchLog c acc (ops ++ [op]) =
      match op with
      | Op.get k =>
        if ((run c ops).Get k).2.2 then k :: touchLog c acc ops else touchLog c acc ops
      | Op.set k _ => k :: touchLog c acc ops := by
  induction ops generalizing c acc with
  | nil =>
    cases op with
    | get k => simp only [List.nil_append, touchLog, run, List.foldl_nil]
    | set k v => simp only [List.nil_append, touchLog]
  | cons o ops ih =>
    cases o with
    | get j => exact ih (c.Get j).1 (if (c.Get j).2.2 then j :: acc else acc)
    | set j w => exact ih (c.Set j w) (j :: acc)

lemma setKeys_append_get (ops : List Op) (k : String) :
    setKeys (ops ++ [Op.get k]) = setKeys ops := by
  simp [setKeys, List.filterMap_append, Op.setKey?]

lemma setKeys_append_set (ops : List Op) (k : String) (v : GoAny) :
    setKeys (ops ++ [Op.set k v]) = setKeys ops ++ [k] := by
  simp [setKeys, List.filterMap_append, Op.setKey?]

lemma Abs.evict_abs {c : LRUCache} {es : List (String × GoAny)} (h : Abs c es) :
    Abs c.evict es.dropLast := by
  obtain ⟨l, hr, rfl⟩ := h
  rcases eq_nil_or_snoc l with rfl | ⟨L, a, rfl⟩
  · have ht : c.tail = none := hr.head_none_iff.2.2 rfl
    have : c.evict = c := by simp [LRUCache.evict, ht]
    rw [this]
    exact ⟨[], hr, rfl⟩
  · obtain ⟨h1, -, -, h4, -⟩ := hr.evict
    refine ⟨L, h1, ?_⟩
    rw [← List.map_dropLast, List.dropLast_concat]
    refine List.map_congr_left (fun p _ => ?_)
    show (_, _) = (_, _)
    rw [(h4 p).1, (h4 p).2]

/-- After any sequence of calls on `NewLRUCache(C)`, `C ≥ 1`, the entry list
agrees with the touch log, and the touched keys are the keys ever `Set`. -/
lemma recency_run (C : Int) (hC : 1 ≤ C) (ops : List Op) :
    ∃ es, Abs (run (NewLRUCache C) ops) es ∧
      Recency C (es.map Prod.fst) (touchLog (NewLRUCache C) [] ops) ∧
      ∀ k, k ∈ touchLog (NewLRUCache C) [] ops ↔ k ∈ setKeys ops := by
  induction ops using List.reverseRecOn with
  | nil => exact ⟨[], abs_new C, Recency.nil C hC, fun k => Iff.rfl⟩
  | append_singleton ops op ih =>
    obtain ⟨es, ha, hrec, hmem⟩ := ih
    have hcap : (run (NewLRUCache C) ops).capacity = C := ((abs_new C).run_abs ops).2
    rw [run_append, touchLog_append]
    cases op with
    | get k =>
      rw [setKeys_append_get]
      by_cases hk : k ∈ es.map Prod.fst
      · obtain ⟨⟨k1, v⟩, hm, hk1⟩ := List.mem_map.1 hk
        simp only at hk1
        subst hk1
        obtain ⟨h1, h2, -, -⟩ := ha.get_hit_abs hm
        have hflag : ((run (NewLRUCache C) ops).Get k1).2.2 = true := by rw [h1]
        simp only [hflag, if_true]
        refine ⟨_, h2, ?_, fun j => ?_⟩
        · rw [List.map_cons, map_fst_filter]
          exact hrec.touch_mem hk
        · rw [← hmem]
          constructor
          · intro h
            rcases List.mem_cons.1 h with e | e
            · exact e ▸ hrec.touched k1 hk
            · exact e
          · exact List.mem_cons_of_mem _
      · have h1 := ha.get_miss_abs hk
        have hflag : ((run (NewLRUCache C) ops).Get k).2.2 = false := by rw [h1]
        have hst : step (run (NewLRUCache C) ops) (Op.get k) = run (NewLRUCache C) ops := by
          simp [step, h1]
        simp only [hflag, hst]
        exact ⟨es, ha, hrec, hmem⟩
    | set k v =>
      rw [setKeys_append_set]
      have hmem1 : ∀ j, j ∈ k :: touchLog (NewLRUCache C) [] ops ↔ j ∈ setKeys ops ++ [k] := by
        intro j
        rw [List.mem_cons, List.mem_append, List.mem_singleton, hmem]
        tauto
      by_cases hk : k ∈ es.map Prod.fst
      · obtain ⟨h1, -⟩ := ha.set_hit_abs hk v
        refine ⟨_, h1, ?_, hmem1⟩
        rw [List.map_cons, map_fst_filter]
        exact hrec.touch_mem hk
      · obtain ⟨h1, -⟩ := ha.set_new_abs hk v
        rw [hcap] at h1
        refine ⟨_, h1, ?_, hmem1⟩
        have := hrec.touch_new hC hk
        rw [List.length_map] at this
        split_ifs with hgt
        · rw [if_pos hgt] at this
          rw [List.map_dropLast]; exact this
        · rw [if_neg hgt] at this
          exact this

/-- C1: for every capacity `C ≥ 1` and every finite sequence of `Get` and `Set`
calls applied to `NewLRUCache(C)`, where a touch of `k` is a `Set(k, _)` or a
`Get(k)` that hits: the keys `ks` met walking from head to tail are
`min(C, n)` keys, `n` the number of distinct keys ever `Set`; each of them was
`Set`; they stand in strictly decreasing order of last-touch time; every key
that was `Set` and is not among them was last touched before each of them; the
head key is the most recently touched key; and the tail key is the last of
`ks`, the one `evict` removes. -/
theorem recency_order (C : Int) (hC : 1 ≤ C) (ops : List Op) :
    ∃ ks, (run (NewLRUCache C) ops).order = some ks ∧
      (ks.length : Int) = min C ((setKeys ops).dedup.length : Int) ∧
      (∀ k ∈ ks, k ∈ setKeys ops) ∧
      ks.Pairwise (fun a b =>
        lastTouch (touchLog (NewLRUCache C) [] ops) b <
          lastTouch (touchLog (NewLRUCache C) [] ops) a) ∧
      (∀ k ∈ setKeys ops, k ∉ ks → ∀ j ∈ ks,
        lastTouch (touchLog (NewLRUCache C) [] ops) k <
          lastTouch (touchLog (NewLRUCache C) [] ops) j) ∧
      (run (NewLRUCache C) ops).headKey = (touchLog (NewLRUCache C) [] ops).head? ∧
      (run (NewLRUCache C) ops).tailKey = ks.getLast? ∧
      (run (NewLRUCache C) ops).evict.order = some ks.dropLast := by
  obtain ⟨es, ha, hrec, hmem⟩ := recency_run C hC ops
  have hperm : (touchLog (NewLRUCache C) [] ops).dedup.Perm (setKeys ops).dedup :=
    (List.perm_ext_iff_of_nodup (List.nodup_dedup _) (List.nodup_dedup _)).2
      (fun k => by rw [List.mem_dedup, List.mem_dedup, hmem])
  refine ⟨es.map Prod.fst, ha.order_eq_abs, ?_, fun k hk => (hmem k).1 (hrec.touched k hk),
    hrec.sorted, fun k hk hkn => hrec.outside k ((hmem k).2 hk) hkn, ?_, ha.tailKey_eq, ?_⟩
  · rw [← hperm.length_eq]; exact hrec.length_eq
  · rw [ha.headKey_eq]; exact hrec.head_eq
  · rw [ha.evict_abs.order_eq_abs, List.map_dropLast]

theorem recency_order_witness :
    (1 : Int) ≤ 3 ∧
    (run (NewLRUCache 3) [Op.set "a" (GoAny.int 1), Op.set "b" (GoAny.int 2),
      Op.set "c" (GoAny.int 3), Op.get "a", Op.set "d" (GoAny.int 4)]).order
      = some ["d", "a", "c"] ∧
    ((run (NewLRUCache 3) [Op.set "a" (GoAny.int 1), Op.set "b" (GoAny.int 2),
      Op.set "c" (GoAny.int 3), Op.get "a", Op.set "d" (GoAny.int 4)]).Get "b").2
      = (GoAny.nil, false) ∧
    ∃ ks, (run (NewLRUCache 3) [Op.set "a" (GoAny.int 1), Op.set "b" (GoAny.int 2),
        Op.set "c" (GoAny.int 3), Op.get "a", Op.set "d" (GoAny.int 4)]).order = some ks ∧
      (ks.length : Int) = min 3 ((setKeys [Op.set "a" (GoAny.int 1), Op.set "b" (GoAny.int 2),
        Op.set "c" (GoAny.int 3), Op.get "a", Op.set "d" (GoAny.int 4)]).dedup.length : Int) :=
  ⟨by decide, by decide, by decide,
    (recency_order 3 (by decide) [Op.set "a" (GoAny.int 1), Op.set "b" (GoAny.int 2),
      Op.set "c" (GoAny.int 3), Op.get "a", Op.set "d" (GoAny.int 4)]).imp
      (fun _ h => ⟨h.1, h.2.1⟩)⟩

theorem list_well_formed_witness :
    Reachable 5 (run (NewLRUCache 5)
      [Op.set "a" (GoAny.int 1), Op.set "b" (GoAny.int 2), Op.set "c" (GoAny.int 3)]) ∧
    (run (NewLRUCache 5)
      [Op.set "a" (GoAny.int 1), Op.set "b" (GoAny.int 2), Op.set "c" (GoAny.int 3)]).order
      = some ["c", "b", "a"] ∧
    (run (NewLRUCache 5)
      [Op.set "a" (GoAny.int 1), Op.set "b" (GoAny.int 2), Op.set "c" (GoAny.int 3)]).backward.map
        (fun l => l.map (fun p => ((run (NewLRUCache 5) [Op.set "a" (GoAny.int 1),
          Op.set "b" (GoAny.int 2), Op.set "c" (GoAny.int 3)]).heap p).key))
      = some ["a", "b", "c"] ∧
    ∃ l : List Nat, l.Nodup ∧
      l.head? = (run (NewLRUCache 5) [Op.set "a" (GoAny.int 1), Op.set "b" (GoAny.int 2),
        Op.set "c" (GoAny.int 3)]).head ∧
      l.getLast? = (run (NewLRUCache 5) [Op.set "a" (GoAny.int 1), Op.set "b" (GoAny.int 2),
        Op.set "c" (GoAny.int 3)]).tail :=
  ⟨⟨_, rfl⟩, by decide, by decide,
    (list_well_formed 5 _ ⟨_, rfl⟩).imp (fun _ h => ⟨h.2.1, h.2.2.1, h.2.2.2.1⟩)⟩

/-! ## Bijection, lifetime of entries and returned values -/

/-- C11: after every call of any finite sequence of `Get` and `Set` calls on
`NewLRUCache(C)`, for any integer `C`, the key map and the recency list are in
bijection: the keys met on the head-to-tail walk are pairwise distinct, they
are exactly the keys of the map, each map key `k` maps to a node of the walk
whose key field is `k`, and each node of the walk is what the map gives for
its key field. -/
theorem map_list_bijection (C : Int) (c : LRUCache) (hr : Reachable C c) :
    ∃ (l : List Nat) (ks : List String), c.forward = some l ∧ c.order = some ks ∧
      ks = l.map (fun p => (c.heap p).key) ∧ ks.Nodup ∧ (∀ k, k ∈ c.cache ↔ k ∈ ks) ∧
      (∀ k n, c.cache.lookup k = some n → n ∈ l ∧ (c.heap n).key = k) ∧
      (∀ n ∈ l, c.cache.lookup (c.heap n).key = some n) ∧ c.len = ks.length := by
  obtain ⟨l, h, -, -⟩ := hr.rep
  refine ⟨l, _, h.forward_eq c.len le_rfl, h.order_eq, rfl, h.keys_nodup, h.mem_cache_iff,
    fun k n hk => h.lookup_some hk, h.lookup_eq, ?_⟩
  rw [h.len_eq, List.length_map]

theorem map_list_bijection_witness :
    Reachable 2 (run (NewLRUCache 2) [Op.set "a" (GoAny.int 1), Op.set "b" (GoAny.int 2),
      Op.get "a", Op.set "c" (GoAny.int 3)]) ∧
    (run (NewLRUCache 2) [Op.set "a" (GoAny.int 1), Op.set "b" (GoAny.int 2),
      Op.get "a", Op.set "c" (GoAny.int 3)]).order = some ["c", "a"] ∧
    (run (NewLRUCache 2) [Op.set "a" (GoAny.int 1), Op.set "b" (GoAny.int 2),
      Op.get "a", Op.set "c" (GoAny.int 3)]).cache.keys = ["c", "a"] ∧
    ∃ (l : List Nat) (ks : List String),
      (run (NewLRUCache 2) [Op.set "a" (GoAny.int 1), Op.set "b" (GoAny.int 2),
        Op.get "a", Op.set "c" (GoAny.int 3)]).forward = some l ∧
      (run (NewLRUCache 2) [Op.set "a" (GoAny.int 1), Op.set "b" (GoAny.int 2),
        Op.get "a", Op.set "c" (GoAny.int 3)]).order = some ks ∧ ks.Nodup :=
  ⟨⟨_, rfl⟩, by decide, by decide,
    (map_list_bijection 2 _ ⟨_, rfl⟩).imp
      (fun _ h => h.imp (fun _ h1 => ⟨h1.1, h1.2.1, h1.2.2.2.1⟩))⟩

lemma get_cache_mem {C : Int} {c : LRUCache} (hr : Reachable C c) (j k : String) :
    k ∈ (c.Get j).1.cache ↔ k ∈ c.cache := by
  obtain ⟨es, ha, -, -⟩ := hr.abs
  by_cases hj : j ∈ es.map Prod.fst
  · obtain ⟨⟨j1, v⟩, hm, rfl⟩ := List.mem_map.1 hj
    rw [(ha.get_hit_abs hm).2.2.2]
  · rw [ha.get_miss_abs hj]

/-- C12: an entry is destroyed only by the insertion of a different, new key
into a full cache. In every state reachable from `NewLRUCache(C)` with `C ≥ 1`
and for every key `k` present in it: `k` is still present after `Get(j)` for
every `j`; if `k` is absent after `Set(j, v)` then `j ≠ k`, `j` had no entry,
the entry count was `C` and `k` was the key of the tail; and a `Set` removes at
most one key. -/
theorem destroyed_only_by_eviction (C : Int) (hC : 1 ≤ C) (c : LRUCache)
    (hr : Reachable C c) (k : String) (hk : k ∈ c.cache) :
    (∀ j, k ∈ (c.Get j).1.cache) ∧
    (∀ j v, k ∉ (c.Set j v).cache →
      j ≠ k ∧ j ∉ c.cache ∧ (c.len : Int) = C ∧ c.tailKey = some k) ∧
    (∀ j v k2, k2 ∈ c.cache → k ∉ (c.Set j v).cache → k2 ∉ (c.Set j v).cache → k2 = k) := by
  obtain ⟨es, ha, hcap, hlen⟩ := hr.abs
  rw [max_eq_left (by omega)] at hlen
  have hb : ∀ k, k ∈ c.cache → ∀ j v, k ∉ (c.Set j v).cache →
      j ≠ k ∧ j ∉ c.cache ∧ (c.len : Int) = C ∧ c.tailKey = some k := by
    intro k hk j v hgone
    by_cases hj : j ∈ c.cache
    · obtain ⟨n, hn⟩ : ∃ n, c.cache.lookup j = some n :=
        Option.isSome_iff_exists.1 (AList.lookup_isSome.2 hj)
      rw [set_hit_cache hn v] at hgone
      exact absurd hk hgone
    · have hjk : j ≠ k := fun e => hj (e ▸ hk)
      have hjes : j ∉ es.map Prod.fst := fun h => hj ((ha.mem_iff j).2 h)
      have hkes : k ∈ es.map Prod.fst := (ha.mem_iff k).1 hk
      obtain ⟨h1, -⟩ := ha.set_new_abs hjes v
      rw [hcap] at h1
      rw [h1.mem_iff] at hgone
      split_ifs at hgone with hgt
      · rcases eq_nil_or_snoc es with rfl | ⟨E, ⟨t, w⟩, rfl⟩
        · cases hkes
        · rw [← List.cons_append, List.dropLast_concat] at hgone
          have hks : (E ++ [(t, w)]).map Prod.fst = E.map Prod.fst ++ [t] := by simp
          rw [hks] at hkes
          have hkt : k = t := by
            rcases List.mem_append.1 hkes with h | h
            · exact absurd (List.mem_cons_of_mem _ h) (by simpa using hgone)
            · exact List.mem_singleton.1 h
          refine ⟨hjk, hj, ?_, ?_⟩
          · rw [ha.len_eq_abs]
            push_cast at hgt hlen ⊢
            omega
          · rw [ha.tailKey_eq, hks, hkt]; simp
      · exact absurd (List.mem_cons_of_mem _ hkes) (by simpa using hgone)
  refine ⟨fun j => (get_cache_mem hr j k).2 hk, hb k hk, fun j v k2 hk2 h1 h2 => ?_⟩
  have e1 := (hb k hk j v h1).2.2.2
  have e2 := (hb k2 hk2 j v h2).2.2.2
  rw [e1] at e2
  exact (Option.some.inj e2).symm

theorem destroyed_only_by_eviction_witness :
    (1 : Int) ≤ 2 ∧
    Reachable 2 (run (NewLRUCache 2) [Op.set "a" (GoAny.int 1), Op.set "b" (GoAny.int 2)]) ∧
    "a" ∈ (run (NewLRUCache 2) [Op.set "a" (GoAny.int 1), Op.set "b" (GoAny.int 2)]).cache ∧
    "a" ∉ ((run (NewLRUCache 2) [Op.set "a" (GoAny.int 1), Op.set "b" (GoAny.int 2)]).Set "c"
      (GoAny.int 3)).cache ∧
    (run (NewLRUCache 2) [Op.set "a" (GoAny.int 1), Op.set "b" (GoAny.int 2)]).tailKey
      = some "a" :=
  ⟨by decide, ⟨_, rfl⟩, by decide, by decide,
    ((destroyed_only_by_eviction 2 (by decide) _ ⟨_, rfl⟩ "a" (by decide)).2.1 "c" (GoAny.int 3)
      (by decide)).2.2.2⟩

lemma lastSet_append (ops : List Op) (op : Op) (k : String) :
    lastSet (ops ++ [op]) k =
      match op with
      | Op.set j v => if j = k then some v else lastSet ops k
      | Op.get _ => lastSet ops k := by
  cases op <;> simp [lastSet, List.foldl_append]

lemma lastSet_decomp (ops : List Op) (k : String) (v : GoAny) (h : lastSet ops k = some v) :
    ∃ pre post, ops = pre ++ Op.set k v :: post ∧ ∀ op ∈ post, op.setKey? ≠ some k := by
  induction ops using List.reverseRecOn with
  | nil => cases h
  | append_singleton ops op ih =>
    rw [lastSet_append] at h
    cases op with
    | get j =>
      obtain ⟨pre, post, e, hp⟩ := ih h
      refine ⟨pre, post ++ [Op.get j], by rw [e]; simp, fun op hop => ?_⟩
      rcases List.mem_append.1 hop with h1 | h1
      · exact hp op h1
      · rw [List.mem_singleton.1 h1]; simp [Op.setKey?]
    | set j w =>
      by_cases hjk : j = k
      · simp only [hjk, if_true, Option.some.injEq] at h
        subst hjk; subst h
        exact ⟨ops, [], rfl, fun op hop => by cases hop⟩
      · simp only [hjk, if_false] at h
        obtain ⟨pre, post, e, hp⟩ := ih h
        refine ⟨pre, post ++ [Op.set j w], by rw [e]; simp, fun op hop => ?_⟩
        rcases List.mem_append.1 hop with h1 | h1
        · exact hp op h1
        · rw [List.mem_singleton.1 h1]; simp [Op.setKey?, hjk]

lemma mem_of_assoc_eq_some {es : List (String × GoAny)} {k : String} {v : GoAny}
    (h : assoc es k = some v) : (k, v) ∈ es := by
  unfold assoc at h
  cases hf : es.find? (fun e => e.1 = k) with
  | none => rw [hf] at h; cases h
  | some e =>
    rw [hf] at h
    have h1 : e.1 = k := by simpa using List.find?_some hf
    have h2 : e.2 = v := by simpa using h
    have := List.mem_of_find?_eq_some hf
    rw [← h1, ← h2]; exact this

lemma absRun_lastSet (C : Int) (ops : List Op) (k : String) (v : GoAny)
    (h : (k, v) ∈ absRun C [] ops) : lastSet ops k = some v := by
  induction ops using List.reverseRecOn generalizing k v with
  | nil => cases h
  | append_singleton ops op ih =>
    rw [absRun_append] at h
    rw [lastSet_append]
    have hstep : absRun C (absRun C [] ops) [op] = absStep C (absRun C [] ops) op := rfl
    rw [hstep] at h
    cases op with
    | get j =>
      simp only [absStep] at h ⊢
      cases ha : assoc (absRun C [] ops) j with
      | none => rw [ha] at h; exact ih k v h
      | some w =>
        rw [ha] at h
        rcases List.mem_cons.1 h with e | e
        · cases e; exact ih k v (mem_of_assoc_eq_some ha)
        · exact ih k v (List.mem_of_mem_filter e)
    | set j w =>
      simp only [absStep] at h ⊢
      by_cases hj : j ∈ (absRun C [] ops).map Prod.fst
      · rw [if_pos hj] at h
        rcases List.mem_cons.1 h with e | e
        · cases e; simp
        · have hne : ¬ j = k := by
            have := (List.mem_filter.1 e).2
            intro e1; simp [e1] at this
          rw [if_neg hne]
          exact ih k v (List.mem_of_mem_filter e)
      · rw [if_neg hj] at h
        have hsub : (k, v) ∈ (j, w) :: absRun C [] ops := by
          split_ifs at h
          · exact (List.dropLast_sublist _).subset h
          · exact h
        rcases List.mem_cons.1 hsub with e | e
        · cases e; simp
        · have hne : ¬ j = k := fun e1 => hj (e1 ▸ List.mem_map_of_mem Prod.fst e)
          rw [if_neg hne]
          exact ih k v e

lemma peek_of_get_true {c : LRUCache} {k : String} {v : GoAny}
    (h : (c.Get k).2 = (v, true)) : c.peek k = some v := by
  unfold LRUCache.Get at h
  cases hl : c.cache.lookup k with
  | none => rw [hl] at h; simp at h
  | some n =>
    rw [hl] at h
    simp only [Prod.mk.injEq, and_true] at h
    rw [((moveToHead_frame c n).2.2.2 n).2] at h
    simp [LRUCache.peek, hl, h]

/-- C20: the cache never returns a stale or foreign value. For every capacity
`C`, every finite sequence `ops` of `Get` and `Set` calls on `NewLRUCache(C)`
and every key `k`: if `Get(k)` issued after `ops` returns `(v, true)`, then
`ops` contains a `Set(k, v)` after which no other `Set(k, _)` occurs, whatever
calls on other keys came in between. -/
theorem get_returns_last_set (C : Int) (ops : List Op) (k : String) (v : GoAny)
    (h : ((run (NewLRUCache C) ops).Get k).2 = (v, true)) :
    ∃ pre post, ops = pre ++ Op.set k v :: post ∧ ∀ op ∈ post, op.setKey? ≠ some k := by
  obtain ⟨ha, -⟩ := (abs_new C).run_abs ops
  have hcap : (NewLRUCache C).capacity = C := rfl
  rw [hcap] at ha
  have hp := peek_of_get_true h
  rw [ha.peek_eq] at hp
  exact lastSet_decomp ops k v (absRun_lastSet C ops k v (mem_of_assoc_eq_some hp))

theorem get_returns_last_set_witness :
    ((run (NewLRUCache 5) [Op.set "key1" (GoAny.str "value1"),
      Op.set "key1" (GoAny.str "updated")]).Get "key1").2 = (GoAny.str "updated", true) ∧
    ∃ pre post, [Op.set "key1" (GoAny.str "value1"), Op.set "key1" (GoAny.str "updated")]
        = pre ++ Op.set "key1" (GoAny.str "updated") :: post ∧
      ∀ op ∈ post, op.setKey? ≠ some "key1" :=
  ⟨by decide, get_returns_last_set 5 _ "key1" (GoAny.str "updated") (by decide)⟩

/-! ## Repeated calls and the guards of `evict` and `moveToHead` -/

lemma filter_filter_key (k : String) (es : List (String × GoAny)) :
    (es.filter (fun e => e.1 ≠ k)).filter (fun e => e.1 ≠ k) = es.filter (fun e => e.1 ≠ k) := by
  rw [List.filter_filter]
  exact List.filter_congr (fun e _ => by simp)

lemma filter_key_of_not_mem {k : String} {es : List (String × GoAny)}
    (h : k ∉ es.map Prod.fst) : es.filter (fun e => e.1 ≠ k) = es := by
  rw [List.filter_eq_self]
  intro e he
  have : e.1 ≠ k := fun e1 => h (e1 ▸ List.mem_map_of_mem Prod.fst he)
  simpa using this

lemma absStep_set_cons_again (C : Int) (k : String) (v : GoAny) (rest : List (String × GoAny))
    (h : k ∉ rest.map Prod.fst) :
    absStep C ((k, v) :: rest) (Op.set k v) = (k, v) :: rest := by
  have hm : k ∈ ((k, v) :: rest).map Prod.fst := by simp
  have hf : ((k, v) :: rest).filter (fun e => e.1 ≠ k) = rest := by
    rw [List.filter_cons]
    simp only [ne_eq, not_true_eq_false, decide_False, Bool.false_eq_true, if_false]
    exact filter_key_of_not_mem h
  simp only [absStep, hm, if_true, hf]

lemma not_mem_filter_key (k : String) (es : List (String × GoAny)) :
    k ∉ (es.filter (fun e => e.1 ≠ k)).map Prod.fst := by
  intro h
  obtain ⟨e, he, hk⟩ := List.mem_map.1 h
  have := (List.mem_filter.1 he).2
  simp [hk] at this

lemma absStep_set_twice (C : Int) (es : List (String × GoAny)) (k : String) (v : GoAny) :
    absStep C (absStep C es (Op.set k v)) (Op.set k v) = absStep C es (Op.set k v) := by
  by_cases hm : k ∈ es.map Prod.fst
  · have h1 : absStep C es (Op.set k v) = (k, v) :: es.filter (fun e => e.1 ≠ k) := by
      simp only [absStep, hm, if_true]
    rw [h1]
    exact absStep_set_cons_again C k v _ (not_mem_filter_key k es)
  · by_cases hgt : ((es.length + 1 : Nat) : Int) > C
    · have h1 : absStep C es (Op.set k v) = ((k, v) :: es).dropLast := by
        simp only [absStep, hm, if_false, hgt, if_true]
      rw [h1]
      rcases eq_nil_or_snoc es with rfl | ⟨E, e, rfl⟩
      · have h0 : ((k, v) :: ([] : List (String × GoAny))).dropLast = [] := rfl
        rw [h0]
        simp only [absStep, List.map_nil, List.not_mem_nil, if_false, hgt, if_true]
        rfl
      · have hd : ((k, v) :: (E ++ [e])).dropLast = (k, v) :: E := by
          rw [← List.cons_append, List.dropLast_concat]
        rw [hd]
        refine absStep_set_cons_again C k v E (fun h => hm ?_)
        rw [List.map_append]
        exact List.mem_append_left _ h
    · have h1 : absStep C es (Op.set k v) = (k, v) :: es := by
        simp only [absStep, hm, if_false, hgt]
      rw [h1]
      exact absStep_set_cons_again C k v es hm

lemma absStep_get_twice (C : Int) (es : List (String × GoAny)) (k : String) :
    absStep C (absStep C es (Op.get k)) (Op.get k) = absStep C es (Op.get k) := by
  cases ha : assoc es k with
  | none =>
    have h1 : absStep C es (Op.get k) = es := by simp only [absStep, ha]
    rw [h1, h1]
  | some v =>
    have h1 : absStep C es (Op.get k) = (k, v) :: es.filter (fun e => e.1 ≠ k) := by
      simp only [absStep, ha]
    rw [h1]
    have h2 : assoc ((k, v) :: es.filter (fun e => e.1 ≠ k)) k = some v := assoc_cons_self _ _ _
    have hf : ((k, v) :: es.filter (fun e => e.1 ≠ k)).filter (fun e => e.1 ≠ k)
        = es.filter (fun e => e.1 ≠ k) := by
      rw [List.filter_cons]
      simp only [ne_eq, not_true_eq_false, decide_False, Bool.false_eq_true, if_false]
      exact filter_filter_key k es
    simp only [absStep, h2, hf]

/-- C21: repeating a call is a no-op on the state. In every reachable state of
any capacity, for every key `k` and value `v`: after `Set(k, v); Set(k, v)` the
head-to-tail list of entries (keys in order, with their values), the key set of
the map and the value of every key are what they are after a single
`Set(k, v)`; the same holds for `Get(k); Get(k)` against a single `Get(k)`, and
both `Get`s return the same result. -/
theorem repeated_call_noop (C : Int) (c : LRUCache) (hr : Reachable C c) (k : String)
    (v : GoAny) :
    (∃ es, (c.Set k v).entries = some es ∧ ((c.Set k v).Set k v).entries = some es) ∧
    ((c.Set k v).Set k v).order = (c.Set k v).order ∧
    (∀ j, j ∈ ((c.Set k v).Set k v).cache ↔ j ∈ (c.Set k v).cache) ∧
    (∀ j, ((c.Set k v).Set k v).peek j = (c.Set k v).peek j) ∧
    (∃ es, (c.Get k).1.entries = some es ∧ ((c.Get k).1.Get k).1.entries = some es) ∧
    ((c.Get k).1.Get k).1.order = (c.Get k).1.order ∧
    (∀ j, j ∈ ((c.Get k).1.Get k).1.cache ↔ j ∈ (c.Get k).1.cache) ∧
    (∀ j, ((c.Get k).1.Get k).1.peek j = (c.Get k).1.peek j) ∧
    ((c.Get k).1.Get k).2 = (c.Get k).2 := by
  obtain ⟨es, ha, -, -⟩ := hr.abs
  have same : ∀ (c1 c2 : LRUCache) (es1 : List (String × GoAny)), Abs c1 es1 → Abs c2 es1 →
      (∃ es, c1.entries = some es ∧ c2.entries = some es) ∧ c2.order = c1.order ∧
      (∀ j, j ∈ c2.cache ↔ j ∈ c1.cache) ∧ (∀ j, c2.peek j = c1.peek j) := by
    intro c1 c2 es1 h1 h2
    refine ⟨⟨es1, h1.entries_eq_abs, h2.entries_eq_abs⟩, ?_, fun j => ?_, fun j => ?_⟩
    · rw [h1.order_eq_abs, h2.order_eq_abs]
    · rw [h1.mem_iff, h2.mem_iff]
    · rw [h1.peek_eq, h2.peek_eq]
  -- Set twice
  obtain ⟨hs1, hc1⟩ := ha.step_abs (Op.set k v)
  obtain ⟨hs2, -⟩ := hs1.step_abs (Op.set k v)
  rw [hc1, absStep_set_twice] at hs2
  obtain ⟨a1, a2, a3, a4⟩ := same (c.Set k v) ((c.Set k v).Set k v) _ hs1 hs2
  -- Get twice
  obtain ⟨hg1, hd1⟩ := ha.step_abs (Op.get k)
  obtain ⟨hg2, -⟩ := hg1.step_abs (Op.get k)
  rw [hd1, absStep_get_twice] at hg2
  obtain ⟨b1, b2, b3, b4⟩ := same (c.Get k).1 ((c.Get k).1.Get k).1 _ hg1 hg2
  refine ⟨a1, a2, a3, a4, b1, b2, b3, b4, ?_⟩
  cases hk : assoc es k with
  | none =>
    have e := ha.get_miss_abs (assoc_eq_none_iff.1 hk)
    rw [e, e]
  | some w =>
    have hm := mem_of_assoc_eq_some hk
    obtain ⟨r1, h1, -, -⟩ := ha.get_hit_abs hm
    obtain ⟨r2, -, -, -⟩ := h1.get_hit_abs (List.mem_cons_self (k, w) _)
    rw [r2, r1]

theorem repeated_call_noop_witness :
    Reachable 2 (run (NewLRUCache 2) [Op.set "a" (GoAny.int 1), Op.set "b" (GoAny.int 2)]) ∧
    ((run (NewLRUCache 2) [Op.set "a" (GoAny.int 1), Op.set "b" (GoAny.int 2)]).Set "c"
      (GoAny.int 3)).order = some ["c", "b"] ∧
    (((run (NewLRUCache 2) [Op.set "a" (GoAny.int 1), Op.set "b" (GoAny.int 2)]).Set "c"
      (GoAny.int 3)).Set "c" (GoAny.int 3)).order
      = ((run (NewLRUCache 2) [Op.set "a" (GoAny.int 1), Op.set "b" (GoAny.int 2)]).Set "c"
        (GoAny.int 3)).order ∧
    (((run (NewLRUCache 2) [Op.set "a" (GoAny.int 1), Op.set "b" (GoAny.int 2)]).Get "a").1.Get
      "a").2
      = ((run (NewLRUCache 2) [Op.set "a" (GoAny.int 1), Op.set "b" (GoAny.int 2)]).Get "a").2 :=
  have h := repeated_call_noop 2 (run (NewLRUCache 2)
    [Op.set "a" (GoAny.int 1), Op.set "b" (GoAny.int 2)]) ⟨_, rfl⟩
  ⟨⟨_, rfl⟩, by decide, (h "c" (GoAny.int 3)).2.1, (h "a" GoAny.nil).2.2.2.2.2.2.2.2⟩

lemma Rep.setLinked_rep {c : LRUCache} {l : List Nat} {k : String} (h : Rep c l)
    (hk : c.cache.lookup k = none) (v : GoAny) : Rep (c.setLinked k v) (c.alloc :: l) := by
  obtain ⟨c2, hc2⟩ : ∃ c2 : LRUCache, c2 = { c with
      heap := Function.update c.heap c.alloc ⟨k, v, none, none⟩
      alloc := c.alloc + 1
      cache := c.cache.insert k c.alloc } := ⟨_, rfl⟩
  have hsl : c.setLinked k v = c2.addToHead c.alloc := by rw [hc2]; rfl
  have hcache2 : c2.cache = c.cache.insert k c.alloc := by rw [hc2]
  have halloc2 : c2.alloc = c.alloc + 1 := by rw [hc2]
  have hn2 : c2.heap c.alloc = ⟨k, v, none, none⟩ := by rw [hc2]; simp
  have hp2 : ∀ p, p ≠ c.alloc → c2.heap p = c.heap p := by
    intro p hp; rw [hc2]; simp [Function.update_noteq hp]
  have hfresh : c.alloc ∉ l := fun hm => lt_irrefl _ (h.fresh _ hm)
  have hne : ∀ p ∈ l, p ≠ c.alloc := fun p hp e => hfresh (e ▸ hp)
  have hl2 : Links c2 l :=
    h.links.congr (by rw [hc2]) (by rw [hc2])
      (fun p hp => by rw [hp2 p (hne p hp)]; exact ⟨rfl, rfl⟩)
  obtain ⟨-, f2, f3, f4⟩ := addToHead_frame c2 c.alloc
  have hkn : ((c2.addToHead c.alloc).heap c.alloc).key = k := by
    rw [(f4 _).1, hn2]
  have hkp : ∀ p ∈ l, ((c2.addToHead c.alloc).heap p).key = (c.heap p).key := by
    intro p hp
    rw [(f4 _).1, hp2 p (hne p hp)]
  have hknot : k ∉ c.cache.keys := by
    rw [← AList.mem_keys]; exact AList.lookup_eq_none.1 hk
  rw [hsl]
  refine ⟨hl2.addToHead hfresh, ?_, ?_, ?_⟩
  · rw [f2, List.map_cons, hkn, List.map_congr_left hkp, hcache2,
      AList.keys_insert, List.erase_of_not_mem hknot]
    exact h.keys_perm.cons k
  · intro p hp
    rw [f2, hcache2]
    rcases List.mem_cons.1 hp with e | e
    · rw [e, hkn, AList.lookup_insert]
    · rw [hkp p e, AList.lookup_insert_ne (h.lookup_none hk p e)]
      exact h.lookup_eq p e
  · intro p hp
    rw [f3, halloc2]
    rcases List.mem_cons.1 hp with e | e
    · omega
    · have := h.fresh p e; omega

lemma Rep.setValue_rep {c : LRUCache} {l : List Nat} (h : Rep c l) (n : Nat) (v : GoAny) :
    Rep (c.setValue n v) l := by
  have hn1 : (c.setValue n v).heap n = { c.heap n with value := v } := by
    simp [LRUCache.setValue]
  have hp1 : ∀ p, p ≠ n → (c.setValue n v).heap p = c.heap p := by
    intro p hp; simp [LRUCache.setValue, Function.update_noteq hp]
  have hkeys : ∀ p, ((c.setValue n v).heap p).key = (c.heap p).key := by
    intro p
    by_cases e : p = n
    · subst e; rw [hn1]
    · rw [hp1 p e]
  have hk1 : (fun p => ((c.setValue n v).heap p).key) = fun p => (c.heap p).key :=
    funext hkeys
  refine ⟨h.links.congr rfl rfl (fun p _ => ?_), ?_, ?_, h.fresh⟩
  · by_cases e : p = n
    · subst e; rw [hn1]; exact ⟨rfl, rfl⟩
    · rw [hp1 p e]; exact ⟨rfl, rfl⟩
  · rw [hk1]; exact h.keys_perm
  · intro p hp; rw [hkeys p]; exact h.lookup_eq p hp

/-- C22: the empty-list guard of `evict` is not reached from `Get` and `Set`,
and `moveToHead` is only given linked nodes. In every state reachable from
`NewLRUCache(C)`, for any integer `C`: when `Set` is called on a new key, at the
test that decides on `evict` the tail is non-nil and the list is not empty, so
`evict` would remove exactly one entry, the last of the order; and when `Get`
or `Set` is called on a key of the map, the node handed to `moveToHead` is the
node the map gives, an address (never nil) that occurs on the head-to-tail walk
of the state `moveToHead` is applied to. -/
theorem evict_guard_unreachable (C : Int) (c : LRUCache) (hr : Reachable C c) (k : String)
    (v : GoAny) :
    (c.cache.lookup k = none →
      c.Set k v = (if ((c.setLinked k v).len : Int) > (c.setLinked k v).capacity
        then (c.setLinked k v).evict else c.setLinked k v) ∧
      (c.setLinked k v).tail ≠ none ∧
      (c.setLinked k v).evict.len + 1 = (c.setLinked k v).len ∧
      ∃ ks, ks ≠ [] ∧ (c.setLinked k v).order = some ks ∧
        (c.setLinked k v).evict.order = some ks.dropLast) ∧
    (∀ n, c.cache.lookup k = some n →
      c.Get k = (c.moveToHead n, ((c.moveToHead n).heap n).value, true) ∧
      c.Set k v = (c.setValue n v).moveToHead n ∧
      ∃ l, c.forward = some l ∧ n ∈ l ∧ (c.setValue n v).forward = some l) := by
  obtain ⟨l, h, -, -⟩ := hr.rep
  constructor
  · intro hk
    have h3 := h.setLinked_rep hk v
    obtain ⟨L, a, hLa⟩ : ∃ L a, c.alloc :: l = L ++ [a] := by
      rcases eq_nil_or_snoc (c.alloc :: l) with e | e
      · cases e
      · exact e
    refine ⟨?_, ?_, ?_, (c.alloc :: l).map (fun p => ((c.setLinked k v).heap p).key), ?_,
      h3.order_eq, ?_⟩
    · simp only [LRUCache.Set, hk]
      rfl
    · rw [h3.links.tail_eq, hLa]; simp
    · rw [hLa] at h3
      obtain ⟨g1, -⟩ := h3.evict
      rw [g1.len_eq, h3.len_eq]; simp
    · simp
    · have ha : Abs (c.setLinked k v) ((c.alloc :: l).map (c.setLinked k v).kv) := ⟨_, h3, rfl⟩
      rw [ha.evict_abs.order_eq_abs, List.map_dropLast, kv_fst_map]
  · intro n hk
    obtain ⟨hn, -⟩ := h.lookup_some hk
    refine ⟨?_, ?_, l, h.forward_eq c.len le_rfl, hn, ?_⟩
    · simp only [LRUCache.Get, hk]
    · simp only [LRUCache.Set, hk]
      rfl
    · exact (h.setValue_rep n v).forward_eq _ le_rfl

theorem evict_guard_unreachable_witness :
    Reachable 0 (run (NewLRUCache 0) [Op.set "a" (GoAny.int 1)]) ∧
    (run (NewLRUCache 0) [Op.set "a" (GoAny.int 1)]).cache.lookup "b" = none ∧
    ((run (NewLRUCache 0) [Op.set "a" (GoAny.int 1)]).setLinked "b" (GoAny.int 2)).tail ≠ none ∧
    ((run (NewLRUCache 0) [Op.set "a" (GoAny.int 1)]).setLinked "b" (GoAny.int 2)).evict.len + 1
      = ((run (NewLRUCache 0) [Op.set "a" (GoAny.int 1)]).setLinked "b" (GoAny.int 2)).len :=
  have h := (evict_guard_unreachable 0 (run (NewLRUCache 0) [Op.set "a" (GoAny.int 1)])
    ⟨_, rfl⟩ "b" (GoAny.int 2)).1 (by decide)
  ⟨⟨_, rfl⟩, by decide, h.2.1, h.2.2.1⟩

end cache

namespace externalapi

/-! ## The fetch client -/

lemma firstMatch_eq_find (equalFold : String → String → Bool) (name : String)
    (L : List CountryAPIResponse) :
    firstMatch equalFold name L =
      match L.find? (fun c => equalFold c.Name name) with
      | some c =>
        { Name := c.Name, Capital := c.Capital, Currency := c.Currencies.head?.getD "",
          Population := c.Population }
      | none => CountrySearchResponse.zero := by
  induction L with
  | nil => rfl
  | cons c rest ih =>
    by_cases h : equalFold c.Name name = true
    · cases hc : c.Currencies <;> simp [firstMatch, List.find?_cons, h, hc]
    · simp only [firstMatch, List.find?_cons, h, if_false, Bool.false_eq_true]
      rw [ih]

/-- C14: `FetchCountryDataWithClient(name, client)` returns a non-nil error if
and only if `name` is empty, or the client's GET call errors, or reading the
response body errors, or the response status is not 200, or the body does not
parse as a list of country records; with a non-nil error the returned record is
the zero `CountrySearchResponse`; and for an empty name the error message is
exactly `country name cannot be empty` and the client is not called. -/
theorem fetch_error_iff (name : String) (client : Client) :
    ((FetchCountryDataWithClient name client).err ≠ none ↔
      name = "" ∨
      (∃ e, client.get ("https://www.apicountries.com/name/" ++ name) = Except.error e) ∨
      (∃ resp e, client.get ("https://www.apicountries.com/name/" ++ name) = Except.ok resp ∧
        resp.Body = Except.error e) ∨
      (∃ resp, client.get ("https://www.apicountries.com/name/" ++ name) = Except.ok resp ∧
        resp.StatusCode ≠ 200) ∨
      (∃ resp body e, client.get ("https://www.apicountries.com/name/" ++ name) = Except.ok resp ∧
        resp.Body = Except.ok body ∧ client.unmarshal body = Except.error e)) ∧
    ((FetchCountryDataWithClient name client).err ≠ none →
      (FetchCountryDataWithClient name client).response = CountrySearchResponse.zero) ∧
    (name = "" →
      (FetchCountryDataWithClient name client).err = some "country name cannot be empty" ∧
      (FetchCountryDataWithClient name client).requests = []) := by
  unfold FetchCountryDataWithClient
  by_cases hn : name = ""
  · simp [hn]
  · simp only [hn, if_false, false_or, false_implies, and_true]
    cases hg : client.get ("https://www.apicountries.com/name/" ++ name) with
    | error e => simp
    | ok resp =>
      cases hb : resp.Body with
      | error e => simp [hb]
      | ok body =>
        by_cases hs : resp.StatusCode = 200
        · cases hu : client.unmarshal body with
          | error e => simp [hb, hs, hu]
          | ok L => simp [hb, hs, hu]
        · simp [hb, hs]

/-- C15, the code at the input of `TestFetchCountryDataWithClient_NetworkError`:
when the client's network call fails, the error returned is the client's error
as it is, and its message does not contain `failed to fetch country data`. -/
theorem network_error_returned_as_is :
    (FetchCountryDataWithClient "Test" networkErrorClient).err =
      some "Get \"https://www.apicountries.com/name/Test\": network error" ∧
    ¬ Contains "Get \"https://www.apicountries.com/name/Test\": network error"
      "failed to fetch country data" := by
  constructor
  · decide
  · decide

/-- C16: for every non-empty name and every response with status 200 whose
body parses to a list `L` of country records, the error is nil and the result
is built from the first record of `L` whose name equals `name` under
`strings.EqualFold`: `Name`, `Capital` and `Population` are copied from it and
`Currency` is the symbol of its first currency, or the empty string when it has
none; when no record matches, the result is the zero `CountrySearchResponse`. -/
theorem fetch_success_first_match (name : String) (client : Client) (resp : Response)
    (body : String) (L : List CountryAPIResponse) (hname : name ≠ "")
    (hget : client.get ("https://www.apicountries.com/name/" ++ name) = Except.ok resp)
    (hbody : resp.Body = Except.ok body) (hstatus : resp.StatusCode = 200)
    (hparse : client.unmarshal body = Except.ok L) :
    (FetchCountryDataWithClient name client).err = none ∧
    (FetchCountryDataWithClient name client).response =
      match L.find? (fun c => client.equalFold c.Name name) with
      | some c =>
        { Name := c.Name, Capital := c.Capital, Currency := c.Currencies.head?.getD "",
          Population := c.Population }
      | none => CountrySearchResponse.zero := by
  unfold FetchCountryDataWithClient
  simp only [hname, if_false, hget, hbody, hstatus, hparse, ne_eq, not_true_eq_false]
  exact ⟨trivial, firstMatch_eq_find _ _ _⟩

theorem fetch_success_first_match_witness :
    "france" ≠ "" ∧
    franceClient.get ("https://www.apicountries.com/name/" ++ "france")
      = Except.ok ⟨200, Except.ok "[France]"⟩ ∧
    franceClient.unmarshal "[France]" = Except.ok [⟨"France", "Paris", 67000000, ["€"]⟩] ∧
    (FetchCountryDataWithClient "france" franceClient).err = none ∧
    (FetchCountryDataWithClient "france" franceClient).response =
      match ([⟨"France", "Paris", 67000000, ["€"]⟩] : List CountryAPIResponse).find?
        (fun c => franceClient.equalFold c.Name "france") with
      | some c =>
        { Name := c.Name, Capital := c.Capital, Currency := c.Currencies.head?.getD "",
          Population := c.Population }
      | none => CountrySearchResponse.zero :=
  ⟨by decide, rfl, rfl,
    fetch_success_first_match "france" franceClient ⟨200, Except.ok "[France]"⟩ "[France]"
      [⟨"France", "Paris", 67000000, ["€"]⟩] (by decide) rfl rfl rfl rfl⟩

end externalapi

namespace server

/-! ## The request handlers -/

lemma find_filter_ne {β : Type} (l : List (String × β)) {k j : String} (h : j ≠ k) :
    (l.filter (fun e => e.1 ≠ k)).find? (fun e => e.1 = j) = l.find? (fun e => e.1 = j) := by
  induction l with
  | nil => rfl
  | cons e l ih =>
    by_cases hk : e.1 = k
    · have hj : ¬ e.1 = j := fun e1 => h (e1.symm.trans hk)
      have h1 : (e :: l).filter (fun e => e.1 ≠ k) = l.filter (fun e => e.1 ≠ k) := by
        simp [List.filter_cons, hk]
      have h2 : (e :: l).find? (fun e => e.1 = j) = l.find? (fun e => e.1 = j) := by
        simp [List.find?_cons, hj]
      rw [h1, h2, ih]
    · have h1 : (e :: l).filter (fun e => e.1 ≠ k) = e :: l.filter (fun e => e.1 ≠ k) := by
        simp [List.filter_cons, hk]
      rw [h1]
      by_cases hj : e.1 = j
      · have h2 : ∀ l1 : List (String × β), (e :: l1).find? (fun e => e.1 = j) = some e := by
          intro l1; simp [List.find?_cons, hj]
        rw [h2, h2]
      · have h2 : ∀ l1 : List (String × β),
            (e :: l1).find? (fun e => e.1 = j) = l1.find? (fun e => e.1 = j) := by
          intro l1; simp [List.find?_cons, hj]
        rw [h2, h2, ih]

lemma headerGet_set_self (w : ResponseWriter) (k v : String) :
    (w.HeaderSet k v).HeaderGet k = v := by
  simp [ResponseWriter.HeaderGet, ResponseWriter.HeaderSet]

lemma headerGet_set_ne (w : ResponseWriter) {k j : String} (v : String) (h : j ≠ k) :
    (w.HeaderSet k v).HeaderGet j = w.HeaderGet j := by
  have hkj : ¬ k = j := fun e => h e.symm
  simp only [ResponseWriter.HeaderGet, ResponseWriter.HeaderSet, List.find?_cons, hkj,
    decide_False]
  rw [find_filter_ne _ h]

lemma headerGet_del_ne (w : ResponseWriter) {k j : String} (h : j ≠ k) :
    (w.HeaderDel k).HeaderGet j = w.HeaderGet j := by
  simp only [ResponseWriter.HeaderGet, ResponseWriter.HeaderDel]
  rw [find_filter_ne _ h]

lemma write_status_body (w : ResponseWriter) (b : String) (hw : w.status = none) :
    (w.Write b).status = some 200 ∧ (w.Write b).body = w.body ++ b := by
  simp [ResponseWriter.Write, ResponseWriter.WriteHeader, hw]

lemma httpError_status_body (w : ResponseWriter) (msg : String) (code : Nat)
    (hw : w.status = none) :
    (httpError w msg code).status = some code ∧
      (httpError w msg code).body = w.body ++ (msg ++ "\n") := by
  simp [httpError, ResponseWriter.Write, ResponseWriter.WriteHeader, ResponseWriter.HeaderSet,
    ResponseWriter.HeaderDel, hw]

lemma corsKeys_ne {k : String} (hk : k ∈ corsKeys) :
    k ≠ "Content-Length" ∧ k ≠ "Content-Type" ∧ k ≠ "X-Content-Type-Options" := by
  simp only [corsKeys, List.mem_cons, List.mem_singleton, List.not_mem_nil, or_false] at hk
  rcases hk with rfl | rfl | rfl | rfl <;> decide

lemma get_false {c : cache.LRUCache} {k : String} (h : (c.Get k).2.2 = false) :
    c.Get k = (c, cache.GoAny.nil, false) ∧ c.cache.lookup k = none := by
  unfold cache.LRUCache.Get at h ⊢
  cases hl : c.cache.lookup k with
  | none => simp
  | some n => rw [hl] at h; simp at h

/-- C17: `SearchCountryHandler`, started with nothing written to the response
yet. If `cache.Get(name)` hits with a record `r`, the response is status 200
with the encoding of `r`, the fetch collaborator is not invoked and the cache is
the one `Get` leaves. If it misses and the fetch succeeds with record `r`, the
handler does `cache.Set(name, r)` and responds 200 with the encoding of `r`. If
it misses and the fetch fails, the response is status 404 with the message
`Country not found` whatever the fetch error, the cache is as before, and it
holds no entry for `name`. -/
theorem search_handler_cases (defaultClient : externalapi.Client)
    (marshal : externalapi.CountrySearchResponse → Except String String)
    (r : Request) (x : World) (hw : x.w.status = none) :
    (∀ rec js, (x.s.cache.Get (r.Query "name")).2 = (cache.GoAny.record rec, true) →
      marshal rec = Except.ok js →
      (SearchCountryHandler defaultClient marshal r x).w.status = some 200 ∧
      (SearchCountryHandler defaultClient marshal r x).w.body = x.w.body ++ js ∧
      (SearchCountryHandler defaultClient marshal r x).fetched = x.fetched ∧
      (SearchCountryHandler defaultClient marshal r x).s.cache
        = (x.s.cache.Get (r.Query "name")).1) ∧
    (∀ js, (x.s.cache.Get (r.Query "name")).2.2 = false →
      (externalapi.FetchCountryData (r.Query "name") defaultClient).err = none →
      marshal (externalapi.FetchCountryData (r.Query "name") defaultClient).response
        = Except.ok js →
      (SearchCountryHandler defaultClient marshal r x).w.status = some 200 ∧
      (SearchCountryHandler defaultClient marshal r x).w.body = x.w.body ++ js ∧
      (SearchCountryHandler defaultClient marshal r x).fetched = x.fetched ++ [r.Query "name"] ∧
      (SearchCountryHandler defaultClient marshal r x).s.cache
        = x.s.cache.Set (r.Query "name") (cache.GoAny.record
            (externalapi.FetchCountryData (r.Query "name") defaultClient).response)) ∧
    (∀ e, (x.s.cache.Get (r.Query "name")).2.2 = false →
      (externalapi.FetchCountryData (r.Query "name") defaultClient).err = some e →
      (SearchCountryHandler defaultClient marshal r x).w.status = some 404 ∧
      (SearchCountryHandler defaultClient marshal r x).w.body
        = x.w.body ++ "Country not found\n" ∧
      (SearchCountryHandler defaultClient marshal r x).fetched = x.fetched ++ [r.Query "name"] ∧
      (SearchCountryHandler defaultClient marshal r x).s.cache = x.s.cache ∧
      (SearchCountryHandler defaultClient marshal r x).s.cache.cache.lookup (r.Query "name")
        = none) := by
  refine ⟨fun rec js hget hm => ?_, fun js hget herr hm => ?_, fun e hget herr => ?_⟩
  · rcases hg : x.s.cache.Get (r.Query "name") with ⟨c1, value, ok⟩
    rw [hg] at hget
    simp only [Prod.mk.injEq] at hget
    obtain ⟨rfl, rfl⟩ := hget
    have hy : SearchCountryHandler defaultClient marshal r x =
        { x with s := { x.s with cache := c1 }, w := x.w.Write js } := by
      unfold SearchCountryHandler
      simp only [hg, writeJSON, hm]
    rw [hy]
    exact ⟨(write_status_body _ _ hw).1, (write_status_body _ _ hw).2, rfl, rfl⟩
  · obtain ⟨hg, -⟩ := get_false hget
    have hy : SearchCountryHandler defaultClient marshal r x =
        { x with
          s := { x.s with cache := x.s.cache.Set (r.Query "name") (cache.GoAny.record
            (externalapi.FetchCountryData (r.Query "name") defaultClient).response) }
          w := x.w.Write js
          fetched := x.fetched ++ [r.Query "name"] } := by
      unfold SearchCountryHandler
      simp only [hg, herr, writeJSON, hm]
    rw [hy]
    exact ⟨(write_status_body _ _ hw).1, (write_status_body _ _ hw).2, rfl, rfl⟩
  · obtain ⟨hg, hl⟩ := get_false hget
    have hy : SearchCountryHandler defaultClient marshal r x =
        { x with
          s := { x.s with cache := x.s.cache }
          w := httpError x.w "Country not found" 404
          fetched := x.fetched ++ [r.Query "name"] } := by
      unfold SearchCountryHandler
      simp only [hg, herr]
    rw [hy]
    exact ⟨(httpError_status_body _ _ _ hw).1, (httpError_status_body _ _ _ hw).2, rfl, rfl, hl⟩

theorem search_handler_cases_witness :
    (worldOf franceCache).w.status = none ∧
    ((worldOf franceCache).s.cache.Get
      ((requestFor "GET" "/api/countries/search" "france").Query "name")).2
      = (cache.GoAny.record ⟨"France", "Paris", "", 0⟩, true) ∧
    nameJSON ⟨"France", "Paris", "", 0⟩ = Except.ok "\x7b\"name\":\"France\"\x7d" ∧
    (SearchCountryHandler externalapi.networkErrorClient nameJSON
      (requestFor "GET" "/api/countries/search" "france") (worldOf franceCache)).w.status
      = some 200 ∧
    (SearchCountryHandler externalapi.networkErrorClient nameJSON
      (requestFor "GET" "/api/countries/search" "france") (worldOf franceCache)).fetched
      = (worldOf franceCache).fetched ∧
    (SearchCountryHandler externalapi.networkErrorClient nameJSON
      (requestFor "GET" "/api/countries/search" "Test")
      (worldOf (cache.NewLRUCache 100))).w.status = some 404 :=
  have h1 := (search_handler_cases externalapi.networkErrorClient nameJSON
    (requestFor "GET" "/api/countries/search" "france") (worldOf franceCache) rfl).1
    ⟨"France", "Paris", "", 0⟩ "\x7b\"name\":\"France\"\x7d" (by decide)
    (congrArg Except.ok (by decide))
  have h2 := (search_handler_cases externalapi.networkErrorClient nameJSON
    (requestFor "GET" "/api/countries/search" "Test") (worldOf (cache.NewLRUCache 100)) rfl).2.2
    "Get \"https://www.apicountries.com/name/Test\": network error" (by decide) (by decide)
  ⟨rfl, by decide, congrArg Except.ok (by decide), h1.1, h1.2.2.1, h2.1⟩

/-- C18, the code at the input of `TestNewServer_WithoutPort`: with `PORT` unset
`os.Getenv` gives the empty string, `strconv.Atoi` fails on it, the port falls
back to 8080 and the address is `:8080`, not `:0`. -/
theorem new_server_without_port (httprouter : String → String → Handler → Handler)
    (defaultClient : externalapi.Client)
    (marshal : externalapi.CountrySearchResponse → Except String String) :
    Atoi "" = none ∧
    (NewServer (fun _ => "") httprouter defaultClient marshal).Addr = ":8080" ∧
    (NewServer (fun _ => "") httprouter defaultClient marshal).Addr ≠ ":0" := by
  have h : (NewServer (fun _ => "") httprouter defaultClient marshal).Addr = ":8080" := by
    have hA : Atoi "" = none := by decide
    simp only [NewServer, hA]
    decide
  exact ⟨by decide, h, by rw [h]; decide⟩

/-! ## The CORS middleware in front of the router -/

lemma sentHeader_of_sent_none (w : ResponseWriter) (k : String) (h : w.sent = none) :
    w.SentHeader k = w.HeaderGet k := by
  simp [ResponseWriter.SentHeader, h]

lemma writeHeader_of_none (w : ResponseWriter) (code : Nat) (h : w.status = none) :
    w.WriteHeader code = { w with status := some code, sent := some w.header } := by
  simp [ResponseWriter.WriteHeader, h]

lemma writeHeader_of_some (w : ResponseWriter) (code c : Nat) (h : w.status = some c) :
    w.WriteHeader code = w := by
  simp [ResponseWriter.WriteHeader, h]

lemma sentHeader_writeHeader (w : ResponseWriter) (code : Nat) (k : String)
    (h : w.status = none) : (w.WriteHeader code).SentHeader k = w.HeaderGet k := by
  rw [writeHeader_of_none _ _ h]; rfl

lemma sentHeader_write (w : ResponseWriter) (b k : String) (h : w.status = none) :
    (w.Write b).SentHeader k = w.HeaderGet k := by
  unfold ResponseWriter.Write
  simp only
  rw [writeHeader_of_none _ _ h]; rfl

lemma sentHeader_writeHeader_write (w : ResponseWriter) (code : Nat) (b k : String)
    (h : w.status = none) : ((w.WriteHeader code).Write b).SentHeader k = w.HeaderGet k := by
  rw [writeHeader_of_none _ _ h]
  unfold ResponseWriter.Write
  simp only
  rw [writeHeader_of_some _ 200 code rfl]; rfl

lemma corsKeys_ne_router {k : String} (hk : k ∈ corsKeys) : k ≠ "Allow" ∧ k ≠ "Location" := by
  simp only [corsKeys, List.mem_cons, List.mem_singleton, List.not_mem_nil, or_false] at hk
  rcases hk with rfl | rfl | rfl | rfl <;> decide

lemma sentHeader_httpError (w : ResponseWriter) (msg : String) (code : Nat) {k : String}
    (hs : w.status = none) (hk : k ∈ corsKeys) :
    (httpError w msg code).SentHeader k = w.HeaderGet k := by
  obtain ⟨h1, h2, h3⟩ := corsKeys_ne hk
  obtain ⟨w3, hw3⟩ : ∃ w3 : ResponseWriter, w3 =
      ((w.HeaderDel "Content-Length").HeaderSet "Content-Type"
        "text/plain; charset=utf-8").HeaderSet "X-Content-Type-Options" "nosniff" := ⟨_, rfl⟩
  have hs3 : w3.status = none := by rw [hw3]; exact hs
  have e : httpError w msg code = (w3.WriteHeader code).Write (msg ++ "\n") := by
    rw [hw3]; rfl
  rw [e, sentHeader_writeHeader_write _ _ _ _ hs3, hw3, headerGet_set_ne _ _ h3,
    headerGet_set_ne _ _ h2, headerGet_del_ne _ h1]

lemma sentHeader_httpRedirect (w : ResponseWriter) (method url : String) (code : Nat)
    (statusText : String) {k : String} (hs : w.status = none) (hk : k ∈ corsKeys) :
    (httpRedirect w method url code statusText).SentHeader k = w.HeaderGet k := by
  obtain ⟨-, h2, -⟩ := corsKeys_ne hk
  obtain ⟨-, h5⟩ := corsKeys_ne_router hk
  have hs1 : (w.HeaderSet "Location" url).status = none := hs
  have hs2 : ((w.HeaderSet "Location" url).HeaderSet "Content-Type"
      "text/html; charset=utf-8").status = none := hs
  have g1 : (w.HeaderSet "Location" url).HeaderGet k = w.HeaderGet k :=
    headerGet_set_ne _ _ h5
  have g2 : ((w.HeaderSet "Location" url).HeaderSet "Content-Type"
      "text/html; charset=utf-8").HeaderGet k = w.HeaderGet k := by
    rw [headerGet_set_ne _ _ h2, g1]
  unfold httpRedirect
  simp only
  split_ifs
  · rw [sentHeader_writeHeader_write _ _ _ _ hs2, g2]
  · rw [sentHeader_writeHeader_write _ _ _ _ hs1, g1]
  · rw [sentHeader_writeHeader _ _ _ hs2, g2]
  · rw [sentHeader_writeHeader _ _ _ hs1, g1]

lemma sentHeader_writeJSON (marshal : externalapi.CountrySearchResponse → Except String String)
    (x : World) (resp : externalapi.CountrySearchResponse) (k : String)
    (hs : x.w.status = none) (hn : x.w.sent = none) :
    (writeJSON marshal x resp).w.SentHeader k = x.w.HeaderGet k := by
  unfold writeJSON
  cases marshal resp with
  | error e => exact sentHeader_of_sent_none _ _ hn
  | ok js => exact sentHeader_write _ _ _ hs

lemma sentHeader_searchCountryHandler (defaultClient : externalapi.Client)
    (marshal : externalapi.CountrySearchResponse → Except String String)
    (r : Request) (x : World) (k : String) (hs : x.w.status = none) (hn : x.w.sent = none)
    (hk : k ∈ corsKeys) :
    (SearchCountryHandler defaultClient marshal r x).w.SentHeader k = x.w.HeaderGet k := by
  unfold SearchCountryHandler
  rcases hget : x.s.cache.Get (r.Query "name") with ⟨c1, value, ok⟩
  cases ok with
  | true =>
    cases value <;> simp only [hget] <;> exact sentHeader_writeJSON marshal _ _ k hs hn
  | false =>
    simp only [hget]
    cases he : (externalapi.FetchCountryData (r.Query "name") defaultClient).err with
    | none => simp only [he]; exact sentHeader_writeJSON marshal _ _ k hs hn
    | some e => simp only [he]; exact sentHeader_httpError _ _ _ hs hk

lemma sentHeader_httprouterServe (decision : Request → Routing) (h : Handler)
    (hh : ∀ r x k, x.w.status = none → x.w.sent = none → k ∈ corsKeys →
      (h r x).w.SentHeader k = x.w.HeaderGet k)
    (r : Request) (x : World) (k : String) (hs : x.w.status = none) (hn : x.w.sent = none)
    (hk : k ∈ corsKeys) :
    (httprouterServe decision h r x).w.SentHeader k = x.w.HeaderGet k := by
  obtain ⟨h4, -⟩ := corsKeys_ne_router hk
  unfold httprouterServe
  cases hd : decision r with
  | handle => simp only [hd]; exact hh r x k hs hn hk
  | redirect code url statusText =>
    simp only [hd]; exact sentHeader_httpRedirect _ _ _ _ _ hs hk
  | options allow =>
    simp only [hd]
    rw [sentHeader_of_sent_none _ _ (show (x.w.HeaderSet "Allow" allow).sent = none from hn),
      headerGet_set_ne _ _ h4]
  | methodNotAllowed allow =>
    simp only [hd]
    rw [sentHeader_httpError _ _ _ (show (x.w.HeaderSet "Allow" allow).status = none from hs) hk,
      headerGet_set_ne _ _ h4]
  | notFound => simp only [hd]; exact sentHeader_httpError _ _ _ hs hk

/-- C19: for every request passed to the handler returned by `RegisterRoutes`
before anything is written, whatever its method and path and whatever the
route tree of the router finds for it, the response is sent with the four CORS
headers (`Access-Control-Allow-Origin` is `*`): they are in the header set that
goes out with the status line. For every request whose method is `OPTIONS` the
status is 204, nothing is written to the body, the server with its cache and
the list of fetched names are as before, and the result is the same for every
router: the router is not invoked. -/
theorem cors_on_every_response (tree : String → String → Request → Routing)
    (defaultClient : externalapi.Client)
    (marshal : externalapi.CountrySearchResponse → Except String String)
    (r : Request) (x : World) (hs : x.w.status = none) (hn : x.w.sent = none) :
    ((RegisterRoutes (httprouter tree) defaultClient marshal r x).w.SentHeader
        "Access-Control-Allow-Origin" = "*" ∧
      (RegisterRoutes (httprouter tree) defaultClient marshal r x).w.SentHeader
        "Access-Control-Allow-Methods" = "GET, POST, PUT, DELETE, OPTIONS, PATCH" ∧
      (RegisterRoutes (httprouter tree) defaultClient marshal r x).w.SentHeader
        "Access-Control-Allow-Headers" = "Accept, Authorization, Content-Type, X-CSRF-Token" ∧
      (RegisterRoutes (httprouter tree) defaultClient marshal r x).w.SentHeader
        "Access-Control-Allow-Credentials" = "false") ∧
    (r.Method = "OPTIONS" →
      (RegisterRoutes (httprouter tree) defaultClient marshal r x).w.status = some 204 ∧
      (RegisterRoutes (httprouter tree) defaultClient marshal r x).w.body = x.w.body ∧
      (RegisterRoutes (httprouter tree) defaultClient marshal r x).s = x.s ∧
      (RegisterRoutes (httprouter tree) defaultClient marshal r x).fetched = x.fetched ∧
      (RegisterRoutes (httprouter tree) defaultClient marshal r x).exited = x.exited ∧
      ∀ router2 : String → String → Handler → Handler,
        RegisterRoutes router2 defaultClient marshal r x
          = RegisterRoutes (httprouter tree) defaultClient marshal r x) := by
  obtain ⟨w4, hw4⟩ : ∃ w4 : ResponseWriter, w4 =
      (((x.w.HeaderSet "Access-Control-Allow-Origin" "*").HeaderSet
        "Access-Control-Allow-Methods" "GET, POST, PUT, DELETE, OPTIONS, PATCH").HeaderSet
        "Access-Control-Allow-Headers"
        "Accept, Authorization, Content-Type, X-CSRF-Token").HeaderSet
        "Access-Control-Allow-Credentials" "false" := ⟨_, rfl⟩
  have hcors : w4.HeaderGet "Access-Control-Allow-Origin" = "*" ∧
      w4.HeaderGet "Access-Control-Allow-Methods" = "GET, POST, PUT, DELETE, OPTIONS, PATCH" ∧
      w4.HeaderGet "Access-Control-Allow-Headers"
        = "Accept, Authorization, Content-Type, X-CSRF-Token" ∧
      w4.HeaderGet "Access-Control-Allow-Credentials" = "false" := by
    rw [hw4]
    refine ⟨?_, ?_, ?_, ?_⟩
    · rw [headerGet_set_ne _ _ (by decide), headerGet_set_ne _ _ (by decide),
        headerGet_set_ne _ _ (by decide), headerGet_set_self]
    · rw [headerGet_set_ne _ _ (by decide), headerGet_set_ne _ _ (by decide),
        headerGet_set_self]
    · rw [headerGet_set_ne _ _ (by decide), headerGet_set_self]
    · rw [headerGet_set_self]
  have hs4 : w4.status = none := by rw [hw4]; exact hs
  have hn4 : w4.sent = none := by rw [hw4]; exact hn
  have hb4 : w4.body = x.w.body := by rw [hw4]; rfl
  have hunfold : ∀ router : String → String → Handler → Handler,
      RegisterRoutes router defaultClient marshal r x =
        if r.Method = "OPTIONS" then { x with w := w4.WriteHeader 204 }
        else router "GET" "/api/countries/search" (SearchCountryHandler defaultClient marshal)
          r { x with w := w4 } := by
    intro router; rw [hw4]; rfl
  constructor
  · rw [hunfold]
    split_ifs with hm
    · simp only [sentHeader_writeHeader _ _ _ hs4]
      exact hcors
    · have hp : ∀ k, k ∈ corsKeys →
          (httprouter tree "GET" "/api/countries/search"
            (SearchCountryHandler defaultClient marshal) r { x with w := w4 }).w.SentHeader k
            = w4.HeaderGet k := fun k hk =>
        sentHeader_httprouterServe _ _
          (fun r1 x1 k1 a b c => sentHeader_searchCountryHandler defaultClient marshal r1 x1 k1 a b c)
          r { x with w := w4 } k hs4 hn4 hk
      rw [hp _ (by decide), hp _ (by decide), hp _ (by decide), hp _ (by decide)]
      exact hcors
  · intro hm
    have hy : ∀ router : String → String → Handler → Handler,
        RegisterRoutes router defaultClient marshal r x = { x with w := w4.WriteHeader 204 } := by
      intro router; rw [hunfold, if_pos hm]
    rw [hy]
    refine ⟨?_, ?_, rfl, rfl, rfl, fun router2 => hy router2⟩
    · show (w4.WriteHeader 204).status = some 204
      rw [writeHeader_of_none _ _ hs4]
    · show (w4.WriteHeader 204).body = x.w.body
      rw [writeHeader_of_none _ _ hs4]; exact hb4

theorem cors_on_every_response_witness :
    (worldOf (cache.NewLRUCache 100)).w.status = none ∧
    (worldOf (cache.NewLRUCache 100)).w.sent = none ∧
    (requestFor "OPTIONS" "/health" "").Method = "OPTIONS" ∧
    (RegisterRoutes (httprouter oneRouteTree) externalapi.networkErrorClient nameJSON
      (requestFor "OPTIONS" "/health" "") (worldOf (cache.NewLRUCache 100))).w.status
      = some 204 ∧
    (RegisterRoutes (httprouter oneRouteTree) externalapi.networkErrorClient nameJSON
      (requestFor "OPTIONS" "/health" "") (worldOf (cache.NewLRUCache 100))).w.body
      = (worldOf (cache.NewLRUCache 100)).w.body ∧
    (RegisterRoutes (httprouter oneRouteTree) externalapi.networkErrorClient nameJSON
      (requestFor "OPTIONS" "/health" "") (worldOf (cache.NewLRUCache 100))).w.SentHeader
      "Access-Control-Allow-Origin" = "*" ∧
    (RegisterRoutes (httprouter oneRouteTree) externalapi.networkErrorClient nameJSON
      (requestFor "POST" "/api/countries/search" "") (worldOf (cache.NewLRUCache 100))).w.status
      = some 405 ∧
    (RegisterRoutes (httprouter oneRouteTree) externalapi.networkErrorClient nameJSON
      (requestFor "POST" "/api/countries/search" "") (worldOf (cache.NewLRUCache 100))).w.SentHeader
      "Access-Control-Allow-Origin" = "*" ∧
    (RegisterRoutes (httprouter oneRouteTree) externalapi.networkErrorClient nameJSON
      (requestFor "GET" "/health" "") (worldOf (cache.NewLRUCache 100))).w.status
      = some 404 ∧
    (RegisterRoutes (httprouter oneRouteTree) externalapi.networkErrorClient nameJSON
      (requestFor "GET" "/health" "") (worldOf (cache.NewLRUCache 100))).w.SentHeader
      "Access-Control-Allow-Origin" = "*" :=
  have h1 := cors_on_every_response oneRouteTree externalapi.networkErrorClient nameJSON
    (requestFor "OPTIONS" "/health" "") (worldOf (cache.NewLRUCache 100)) rfl rfl
  have h2 := cors_on_every_response oneRouteTree externalapi.networkErrorClient nameJSON
    (requestFor "POST" "/api/countries/search" "") (worldOf (cache.NewLRUCache 100)) rfl rfl
  have h3 := cors_on_every_response oneRouteTree externalapi.networkErrorClient nameJSON
    (requestFor "GET" "/health" "") (worldOf (cache.NewLRUCache 100)) rfl rfl
  ⟨rfl, rfl, rfl, (h1.2 rfl).1, (h1.2 rfl).2.1, h1.1.1, by decide, h2.1.1, by decide, h3.1.1⟩

end server
